import Mathlib

set_option linter.unusedSectionVars false

/-!
Verification of the locache TTL cache engine (list-based implementation:
`Item`, `Cache` with `items *list.List` and `index map[Key]*list.Element`).

Shallow embedding conventions:
- `time.Time` is modelled as `Int` (an absolute instant); `time.Duration` as `Int`.
  `a.Before(b)` is `a < b`.
- The doubly linked list `items` is modelled as a Lean list of nodes
  `(nodeId, item)`; `list.Element` pointers become node ids, allocated from a
  counter `nextId` so that ids are unique.
- The Go map `index` is modelled as an association list with unique keys.
- Go's `error` is modelled by `GoError`; `fmt.Errorf("... %w", err)` is the
  `GoError.wrap` constructor and `errors.Unwrap` is `GoError.unwrap`.
- Mutexes disappear in the sequential embedding of the operations; the only
  lock state that is observable sequentially is the per-item `TryLock` that
  `Purge` performs, modelled by the `locked` flag of an item (true means some
  concurrent `GetOrRefresh` holds the item lock while the sweep runs).
- The caller-supplied `refresh func() (Value, error)` of a sequential
  `GetOrRefresh` call is modelled by its outcome, a pair `Value × Option GoError`.
- The singleflight protocol of `GetOrRefresh` under concurrency is modelled
  separately by an explicit small-step transition system (`SfStep`) further down.
-/

namespace Locache

/-- Go error values: a base error or a wrapping error as produced by
fmt.Errorf with a percent-w verb. -/
inductive GoError where
  | base (msg : String)
  | wrap (msg : String) (cause : GoError)
deriving DecidableEq

/-- errors.Unwrap: recover the cause of a wrapping error. -/
def GoError.unwrap : GoError → Option GoError
  | .base _ => none
  | .wrap _ c => some c

variable {Key Value : Type} [DecidableEq Key] [Inhabited Value]

/-- One cache entry, mirroring the Go struct
`Item[Key, Value] (mtx sync.Mutex; key Key; val Value; exp time.Time; set bool)`.
The `locked` flag models whether the item mutex is currently held by a
concurrent caller (relevant only to the TryLock in Purge). -/
structure Item (Key Value : Type) where
  key : Key
  val : Value
  exp : Int
  set : Bool
  locked : Bool
deriving DecidableEq

/-- Item.IsExpired: `i.exp.Before(now())`. -/
def Item.isExpired (it : Item Key Value) (t : Int) : Bool :=
  decide (it.exp < t)

/-- Item.IsValid: `i.set && !i.IsExpired()`. -/
def Item.isValid (it : Item Key Value) (t : Int) : Bool :=
  it.set && !(it.isExpired t)

/-- Lookup in the Go map `index` (association list with unique keys). -/
def mapGet : List (Key × Nat) → Key → Option Nat
  | [], _ => none
  | p :: rest, k => if k = p.1 then some p.2 else mapGet rest k

/-- Assignment `index[key] = id` in the Go map. -/
def mapSet : List (Key × Nat) → Key → Nat → List (Key × Nat)
  | [], k, id => [(k, id)]
  | p :: rest, k, id => if k = p.1 then (p.1, id) :: rest else p :: mapSet rest k id

/-- Go `delete(index, key)`. On a unique-keys association list this removes
the binding of the key. -/
def mapDel : List (Key × Nat) → Key → List (Key × Nat)
  | [], _ => []
  | p :: rest, k => if p.1 = k then mapDel rest k else p :: mapDel rest k

/-- Dereference a `list.Element` pointer: find the node with the given id. -/
def findItem : List (Nat × Item Key Value) → Nat → Option (Item Key Value)
  | [], _ => none
  | p :: rest, id => if id = p.1 then some p.2 else findItem rest id

/-- Go `list.Remove(element)`: drop the node with the given id. -/
def removeId : List (Nat × Item Key Value) → Nat → List (Nat × Item Key Value)
  | [], _ => []
  | p :: rest, id => if p.1 = id then removeId rest id else p :: removeId rest id

/-- Mutation of the item a `list.Element` points to. -/
def updateItem : List (Nat × Item Key Value) → Nat → (Item Key Value → Item Key Value) →
    List (Nat × Item Key Value)
  | [], _, _ => []
  | p :: rest, id, f =>
    if p.1 = id then (p.1, f p.2) :: updateItem rest id f else p :: updateItem rest id f

/-- Go `list.MoveToBack(element)`: a no-op when the element is not in the list
(it was removed), otherwise unlink it and append it at the tail. -/
def moveToBack (l : List (Nat × Item Key Value)) (id : Nat) : List (Nat × Item Key Value) :=
  match findItem l id with
  | none => l
  | some it => removeId l id ++ [(id, it)]

/-- The cache engine state: fixed `ttl`, the expiration-ordered node list
`items` (called `order` here), the key index, and the node id allocator. -/
structure CacheState (Key Value : Type) where
  ttl : Int
  order : List (Nat × Item Key Value)
  index : List (Key × Nat)
  nextId : Nat
deriving DecidableEq

/-- A freshly constructed cache (`New`): empty list, empty index. -/
def empty (ttl : Int) : CacheState Key Value :=
  ⟨ttl, [], [], 0⟩

/-- The entry currently stored for a key: index lookup followed by pointer
dereference. -/
def entryOf (s : CacheState Key Value) (k : Key) : Option (Item Key Value) :=
  match mapGet s.index k with
  | none => none
  | some id => findItem s.order id

/-- Cache.Get: index lookup, validity check, value or the zero value. -/
def get (s : CacheState Key Value) (k : Key) (t : Int) : Value × Bool :=
  match mapGet s.index k with
  | none => (default, false)
  | some id =>
    match findItem s.order id with
    | none => (default, false)
    | some it => if it.isValid t then (it.val, true) else (default, false)

/-- Cache.Set: overwrite and move to back when the key is present, otherwise
push a fresh node at the back and index it. -/
def set (s : CacheState Key Value) (k : Key) (v : Value) (t : Int) : CacheState Key Value :=
  match mapGet s.index k with
  | some id =>
    ⟨s.ttl, moveToBack (updateItem s.order id fun it => ⟨it.key, v, t + s.ttl, true, it.locked⟩) id,
      s.index, s.nextId⟩
  | none =>
    ⟨s.ttl, s.order ++ [(s.nextId, ⟨k, v, t + s.ttl, true, false⟩)],
      mapSet s.index k s.nextId, s.nextId + 1⟩

/-- Cache.Del: remove the node and the index binding when present, no-op
otherwise. -/
def del (s : CacheState Key Value) (k : Key) : CacheState Key Value :=
  match mapGet s.index k with
  | some id => ⟨s.ttl, removeId s.order id, mapDel s.index k, s.nextId⟩
  | none => s

/-- Cache.getOrCreateElement: return the existing element for the key, or push
a placeholder item (zero value, unset, exp = now + ttl) at the back and index
it. -/
def getOrCreateElement (s : CacheState Key Value) (k : Key) (t : Int) :
    CacheState Key Value × Nat :=
  match mapGet s.index k with
  | some id => (s, id)
  | none =>
    (⟨s.ttl, s.order ++ [(s.nextId, ⟨k, default, t + s.ttl, false, false⟩)],
      mapSet s.index k s.nextId, s.nextId + 1⟩, s.nextId)

/-- Result of a sequential `GetOrRefresh` call: the state after the call, the
returned value, the returned error, and whether `refresh` was invoked. -/
structure GoRResult (Key Value : Type) where
  state : CacheState Key Value
  val : Value
  err : Option GoError
  called : Bool
deriving DecidableEq

/-- Cache.GetOrRefresh, sequentially: `t1` is the time of the
getOrCreateElement/validity steps, `t2` the time at which a successful refresh
computes the new expiry (refresh may take time, so `t1 ≤ t2` in well-formed
runs). `rf` is the outcome of the caller-supplied refresh function. -/
def getOrRefresh (s : CacheState Key Value) (k : Key) (rf : Value × Option GoError)
    (t1 t2 : Int) : GoRResult Key Value :=
  let pr := getOrCreateElement s k t1
  match findItem pr.1.order pr.2 with
  | none => ⟨pr.1, default, some (.base "nil element"), false⟩
  | some it =>
    if it.isValid t1 then ⟨pr.1, it.val, none, false⟩
    else
      match rf.2 with
      | some e => ⟨pr.1, default, some (.wrap "refresh val" e), true⟩
      | none =>
        ⟨⟨pr.1.ttl,
            moveToBack
              (updateItem pr.1.order pr.2 fun j => ⟨j.key, rf.1, t2 + pr.1.ttl, true, j.locked⟩)
              pr.2,
            pr.1.index, pr.1.nextId⟩,
          rf.1, none, true⟩

/-- Result of the Purge sweep loop over the node list: the surviving nodes, the
updated index, and the ids the loop examined, in visit order. -/
structure PurgeResult (Key Value : Type) where
  order : List (Nat × Item Key Value)
  index : List (Key × Nat)
  examined : List Nat
deriving DecidableEq

/-- The loop body of Cache.Purge: walk the list from the front; when TryLock
fails (item locked) skip the node; when the item is expired remove the node
and delete its key from the index; otherwise keep the node; in every case
continue with the next node. -/
def purgeLoop : List (Nat × Item Key Value) → List (Key × Nat) → Int → PurgeResult Key Value
  | [], idx, _ => ⟨[], idx, []⟩
  | p :: rest, idx, t =>
    if p.2.locked then
      let r := purgeLoop rest idx t
      ⟨p :: r.order, r.index, p.1 :: r.examined⟩
    else if p.2.exp < t then
      let r := purgeLoop rest (mapDel idx p.2.key) t
      ⟨r.order, r.index, p.1 :: r.examined⟩
    else
      let r := purgeLoop rest idx t
      ⟨p :: r.order, r.index, p.1 :: r.examined⟩

/-- Cache.Purge at time `t`. -/
def purge (s : CacheState Key Value) (t : Int) : CacheState Key Value :=
  let r := purgeLoop s.order s.index t
  ⟨s.ttl, r.order, r.index, s.nextId⟩

/-- The node ids the Purge sweep examined, in visit order. -/
def purgeExamined (s : CacheState Key Value) (t : Int) : List Nat :=
  (purgeLoop s.order s.index t).examined

example :
    get (set (empty 10 : CacheState Nat Nat) 1 42 0) 1 5 = (42, true) := by decide

example :
    get (set (empty 10 : CacheState Nat Nat) 1 42 0) 1 11 = (0, false) := by decide

example :
    get (del (set (empty 10 : CacheState Nat Nat) 1 42 0) 1) 1 5 = (0, false) := by decide

/-- Claim C1: for every key and state, Get returns found only when the stored
entry exists, is set, and the current time is at most its expiry, in which case
the stored value is returned; and an item is valid exactly when it is set and
the current time is at most its expiry. -/
theorem get_found_iff_valid (s : CacheState Key Value) (k : Key) (t : Int) (v : Value) :
    (get s k t = (v, true) ↔
      ∃ it, entryOf s k = some it ∧ it.set = true ∧ t ≤ it.exp ∧ it.val = v) ∧
    (∀ it : Item Key Value, it.isValid t = (it.set && decide (t ≤ it.exp))) := by
  constructor
  · unfold get entryOf
    cases h1 : mapGet s.index k with
    | none => simp
    | some id =>
      cases h2 : findItem s.order id with
      | none => simp [h2]
      | some it =>
        simp only [h2, Option.some.injEq]
        by_cases hv : it.isValid t = true
        · have hsl : it.set = true ∧ t ≤ it.exp := by
            unfold Item.isValid Item.isExpired at hv
            have h3 := Bool.and_eq_true_iff.mp hv
            refine ⟨h3.1, ?_⟩
            have h4 := h3.2
            simp only [Bool.not_eq_true', decide_eq_false_iff_not] at h4
            omega
          rw [if_pos hv]
          simp only [Prod.mk.injEq]
          constructor
          · rintro ⟨hval, -⟩
            exact ⟨it, rfl, hsl.1, hsl.2, hval⟩
          · rintro ⟨it', hit', -, -, hval⟩
            cases hit'
            exact ⟨hval, trivial⟩
        · have hns : ¬(it.set = true ∧ t ≤ it.exp) := by
            intro hsl
            apply hv
            unfold Item.isValid Item.isExpired
            simp only [hsl.1, Bool.true_and, Bool.not_eq_true', decide_eq_false_iff_not]
            omega
          rw [if_neg hv]
          simp only [Prod.mk.injEq]
          constructor
          · rintro ⟨-, hfalse⟩
            cases hfalse
          · rintro ⟨it', hit', hs, hl, -⟩
            cases hit'
            exact absurd ⟨hs, hl⟩ hns
  · intro it
    unfold Item.isValid Item.isExpired
    cases hs : it.set with
    | false => simp
    | true =>
      simp only [Bool.true_and]
      by_cases h : it.exp < t
      · have h5 : ¬ t ≤ it.exp := by omega
        simp [h, h5]
      · have h5 : t ≤ it.exp := by omega
        simp [h, h5]

theorem mapGet_mapSet_self (m : List (Key × Nat)) (k : Key) (id : Nat) :
    mapGet (mapSet m k id) k = some id := by
  induction m with
  | nil => simp [mapSet, mapGet]
  | cons p rest ih =>
    by_cases h : k = p.1
    · simp [mapSet, if_pos h, mapGet, h]
    · simp [mapSet, if_neg h, mapGet, if_neg h, ih]

theorem mapGet_mapSet_ne (m : List (Key × Nat)) (k k' : Key) (id : Nat) (h : k' ≠ k) :
    mapGet (mapSet m k id) k' = mapGet m k' := by
  induction m with
  | nil => simp [mapSet, mapGet, if_neg h]
  | cons p rest ih =>
    by_cases h1 : k = p.1
    · subst h1
      simp [mapSet, mapGet, if_neg h]
    · simp only [mapSet, if_neg h1]
      by_cases h2 : k' = p.1
      · simp [mapGet, if_pos h2]
      · simp [mapGet, if_neg h2, ih]

theorem mapGet_mapDel_self (m : List (Key × Nat)) (k : Key) :
    mapGet (mapDel m k) k = none := by
  induction m with
  | nil => rfl
  | cons p rest ih =>
    unfold mapDel
    by_cases h : p.1 = k
    · rw [if_pos h]
      exact ih
    · rw [if_neg h]
      have h2 : ¬ k = p.1 := fun he => h he.symm
      unfold mapGet
      rw [if_neg h2]
      exact ih

theorem mapGet_mapDel_ne (m : List (Key × Nat)) (k k' : Key) (h : k' ≠ k) :
    mapGet (mapDel m k) k' = mapGet m k' := by
  induction m with
  | nil => rfl
  | cons p rest ih =>
    unfold mapDel
    by_cases h1 : p.1 = k
    · rw [if_pos h1]
      have h2 : ¬ k' = p.1 := fun he => h (he.trans h1)
      rw [ih]
      conv_rhs => unfold mapGet
      rw [if_neg h2]
    · rw [if_neg h1]
      by_cases h2 : k' = p.1
      · unfold mapGet
        rw [if_pos h2, if_pos h2]
      · unfold mapGet
        rw [if_neg h2, if_neg h2]
        exact ih

theorem findItem_append_self (l : List (Nat × Item Key Value)) (id : Nat) (it : Item Key Value)
    (h : ∀ p ∈ l, p.1 ≠ id) : findItem (l ++ [(id, it)]) id = some it := by
  induction l with
  | nil => simp [findItem]
  | cons p rest ih =>
    have hp : ¬ id = p.1 := fun he => h p (by simp) he.symm
    simp only [List.cons_append, findItem, if_neg hp]
    exact ih fun q hq => h q (by simp [hq])

/-- Claim C5: when the entry for the key is valid at the moment GetOrRefresh
takes the entry lock, the call returns the cached value with no error, does
not invoke refresh, and leaves the whole cache state (value, expiry, list
position) unchanged. -/
theorem getOrRefresh_valid_hit (s : CacheState Key Value) (k : Key)
    (rf : Value × Option GoError) (t1 t2 : Int) (it : Item Key Value)
    (h1 : entryOf s k = some it) (h2 : it.isValid t1 = true) :
    getOrRefresh s k rf t1 t2 = ⟨s, it.val, none, false⟩ := by
  unfold entryOf at h1
  cases hm : mapGet s.index k with
  | none => rw [hm] at h1; cases h1
  | some id =>
    rw [hm] at h1
    have h1' : findItem s.order id = some it := h1
    unfold getOrRefresh getOrCreateElement
    rw [hm]
    simp only [h1', if_pos h2]

/-- Witness for C5 at a concrete input. -/
theorem getOrRefresh_valid_hit_witness :
    getOrRefresh (set (empty 10 : CacheState Nat Nat) 1 42 0) 1 (7, none) 5 5 =
      ⟨set (empty 10 : CacheState Nat Nat) 1 42 0, 42, none, false⟩ :=
  getOrRefresh_valid_hit _ 1 (7, none) 5 5 ⟨1, 42, 10, true, false⟩ (by decide) (by decide)

/-- Claim C6: when the entry for the key pre-exists (in whatever invalid
state) and refresh fails, GetOrRefresh leaves the cache state untouched
(previous value, expiry and isSet flag intact), returns the zero value and an
error wrapping the refresh error, from which the original error is
recoverable. -/
theorem getOrRefresh_err_preexisting (s : CacheState Key Value) (k : Key) (z : Value)
    (e : GoError) (t1 t2 : Int) (it : Item Key Value)
    (h1 : entryOf s k = some it) (h2 : it.isValid t1 = false) :
    getOrRefresh s k (z, some e) t1 t2 = ⟨s, default, some (.wrap "refresh val" e), true⟩ ∧
    GoError.unwrap (.wrap "refresh val" e) = some e := by
  refine ⟨?_, rfl⟩
  unfold entryOf at h1
  cases hm : mapGet s.index k with
  | none => rw [hm] at h1; cases h1
  | some id =>
    rw [hm] at h1
    have h1' : findItem s.order id = some it := h1
    unfold getOrRefresh getOrCreateElement
    rw [hm]
    simp only [h1', h2, Bool.false_eq_true, if_false]

/-- Witness for C6 at a concrete input: an expired entry survives the failed
refresh untouched. -/
theorem getOrRefresh_err_preexisting_witness :
    getOrRefresh (set (empty 10 : CacheState Nat Nat) 1 42 0) 1 (0, some (.base "boom")) 11 12 =
      ⟨set (empty 10 : CacheState Nat Nat) 1 42 0, default,
        some (.wrap "refresh val" (.base "boom")), true⟩ ∧
    GoError.unwrap (.wrap "refresh val" (.base "boom")) = some (.base "boom") :=
  getOrRefresh_err_preexisting _ 1 0 (.base "boom") 11 12 ⟨1, 42, 10, true, false⟩
    (by decide) (by decide)

/-- Counterexample to claim C3 as stated: on a never-seen key whose refresh
fails, the cited implementation does not remove the placeholder from the
index and the list; the entry for the key is still present in the structure
when the error is returned. -/
theorem getOrRefresh_err_fresh_counterexample :
    (getOrRefresh (empty 10 : CacheState Nat Nat) 1 (0, some (.base "boom")) 0 0).err =
      some (.wrap "refresh val" (.base "boom")) ∧
    entryOf (getOrRefresh (empty 10 : CacheState Nat Nat) 1
        (0, some (.base "boom")) 0 0).state 1 =
      some ⟨1, 0, 10, false, false⟩ ∧
    (getOrRefresh (empty 10 : CacheState Nat Nat) 1
        (0, some (.base "boom")) 0 0).state.order ≠ [] := by
  decide

/-- The state and outcome of a failed refresh on a never-seen key: the
placeholder pushed by getOrCreateElement is not removed on the error path. -/
theorem getOrRefresh_err_fresh_state (s : CacheState Key Value) (k : Key) (z : Value)
    (e : GoError) (t1 t2 : Int) (h : mapGet s.index k = none)
    (hid : ∀ p ∈ s.order, p.1 ≠ s.nextId) :
    getOrRefresh s k (z, some e) t1 t2 =
      ⟨⟨s.ttl, s.order ++ [(s.nextId, ⟨k, default, t1 + s.ttl, false, false⟩)],
          mapSet s.index k s.nextId, s.nextId + 1⟩,
        default, some (.wrap "refresh val" e), true⟩ := by
  have hfind :
      findItem (s.order ++ [(s.nextId, (⟨k, default, t1 + s.ttl, false, false⟩ :
        Item Key Value))]) s.nextId = some ⟨k, default, t1 + s.ttl, false, false⟩ :=
    findItem_append_self s.order s.nextId _ hid
  have hvd : (Item.isValid (⟨k, default, t1 + s.ttl, false, false⟩ : Item Key Value) t1) = false := by
    unfold Item.isValid
    simp
  unfold getOrRefresh getOrCreateElement
  rw [h]
  simp only [hfind, hvd, Bool.false_eq_true, if_false]

/-- Claim C3 as amended: on a never-seen key whose refresh fails, GetOrRefresh
returns the zero value and the wrapped error, but the placeholder it created
stays in the index and the ordering list with isSet = false and
exp = createTime + ttl; the placeholder is invisible to Get, which keeps
returning found = false for the key at every time. -/
theorem getOrRefresh_err_fresh (s : CacheState Key Value) (k : Key) (z : Value)
    (e : GoError) (t1 t2 : Int) (h : mapGet s.index k = none)
    (hid : ∀ p ∈ s.order, p.1 ≠ s.nextId) :
    (getOrRefresh s k (z, some e) t1 t2).err = some (.wrap "refresh val" e) ∧
    (getOrRefresh s k (z, some e) t1 t2).val = default ∧
    (getOrRefresh s k (z, some e) t1 t2).called = true ∧
    entryOf (getOrRefresh s k (z, some e) t1 t2).state k =
      some ⟨k, default, t1 + s.ttl, false, false⟩ ∧
    (∀ t, get (getOrRefresh s k (z, some e) t1 t2).state k t = (default, false)) := by
  have hfind :
      findItem (s.order ++ [(s.nextId, (⟨k, default, t1 + s.ttl, false, false⟩ :
        Item Key Value))]) s.nextId = some ⟨k, default, t1 + s.ttl, false, false⟩ :=
    findItem_append_self s.order s.nextId _ hid
  have hres := getOrRefresh_err_fresh_state s k z e t1 t2 h hid
  rw [hres]
  refine ⟨rfl, rfl, rfl, ?_, ?_⟩
  · unfold entryOf
    simp only [mapGet_mapSet_self]
    exact hfind
  · intro t
    unfold get
    simp only [mapGet_mapSet_self, hfind]
    have hv2 : (Item.isValid (⟨k, default, t1 + s.ttl, false, false⟩ : Item Key Value) t) = false := by
      unfold Item.isValid
      simp
    rw [hv2]
    simp

/-- Witness for the amended C3 at a concrete input. -/
theorem getOrRefresh_err_fresh_witness :
    (getOrRefresh (empty 10 : CacheState Nat Nat) 1 (0, some (.base "boom")) 0 3).err =
      some (.wrap "refresh val" (.base "boom")) ∧
    (getOrRefresh (empty 10 : CacheState Nat Nat) 1 (0, some (.base "boom")) 0 3).val = default ∧
    (getOrRefresh (empty 10 : CacheState Nat Nat) 1 (0, some (.base "boom")) 0 3).called = true ∧
    entryOf (getOrRefresh (empty 10 : CacheState Nat Nat) 1
        (0, some (.base "boom")) 0 3).state 1 = some ⟨1, 0, 10, false, false⟩ ∧
    (∀ t, get (getOrRefresh (empty 10 : CacheState Nat Nat) 1
        (0, some (.base "boom")) 0 3).state 1 t = (0, false)) :=
  getOrRefresh_err_fresh (empty 10 : CacheState Nat Nat) 1 0 (.base "boom") 0 3
    (by decide) (by simp [empty])

theorem purgeLoop_examined (l : List (Nat × Item Key Value)) (idx : List (Key × Nat)) (t : Int) :
    (purgeLoop l idx t).examined = l.map Prod.fst := by
  induction l generalizing idx with
  | nil => rfl
  | cons p rest ih =>
    unfold purgeLoop
    by_cases hl : p.2.locked = true
    · rw [if_pos hl]
      simp [ih]
    · rw [if_neg hl]
      by_cases he : p.2.exp < t
      · rw [if_pos he]
        simp [ih]
      · rw [if_neg he]
        simp [ih]

theorem purgeLoop_order (l : List (Nat × Item Key Value)) (idx : List (Key × Nat)) (t : Int) :
    (purgeLoop l idx t).order = l.filter fun p => p.2.locked || !(decide (p.2.exp < t)) := by
  induction l generalizing idx with
  | nil => rfl
  | cons p rest ih =>
    unfold purgeLoop
    by_cases hl : p.2.locked = true
    · rw [if_pos hl]
      simp [List.filter_cons, hl, ih]
    · rw [if_neg hl]
      have hl' : p.2.locked = false := by
        cases hb : p.2.locked
        · rfl
        · exact absurd hb hl
      by_cases he : p.2.exp < t
      · rw [if_pos he]
        simp [List.filter_cons, hl', he, ih]
      · rw [if_neg he]
        simp [List.filter_cons, hl', he, ih]

theorem purgeLoop_index_none (l : List (Nat × Item Key Value)) (idx : List (Key × Nat))
    (t : Int) (k : Key) (h : mapGet idx k = none) :
    mapGet (purgeLoop l idx t).index k = none := by
  induction l generalizing idx with
  | nil => exact h
  | cons p rest ih =>
    unfold purgeLoop
    by_cases hl : p.2.locked = true
    · rw [if_pos hl]
      exact ih idx h
    · rw [if_neg hl]
      by_cases he : p.2.exp < t
      · rw [if_pos he]
        refine ih (mapDel idx p.2.key) ?_
        by_cases hk : k = p.2.key
        · rw [hk]
          exact mapGet_mapDel_self idx p.2.key
        · rw [mapGet_mapDel_ne idx p.2.key k hk]
          exact h
      · rw [if_neg he]
        exact ih idx h

theorem purgeLoop_removed_key (l : List (Nat × Item Key Value)) (idx : List (Key × Nat))
    (t : Int) (id : Nat) (it : Item Key Value) (hmem : (id, it) ∈ l)
    (h1 : it.locked = false) (h2 : it.exp < t) :
    mapGet (purgeLoop l idx t).index it.key = none := by
  induction l generalizing idx with
  | nil => cases hmem
  | cons p rest ih =>
    unfold purgeLoop
    rcases List.mem_cons.mp hmem with hp | hrest
    · have hsnd : p.2 = it := by rw [← hp]
      have hl : ¬ p.2.locked = true := by rw [hsnd, h1]; simp
      rw [if_neg hl]
      have he : p.2.exp < t := by rw [hsnd]; exact h2
      rw [if_pos he]
      refine purgeLoop_index_none rest (mapDel idx p.2.key) t it.key ?_
      rw [hsnd]
      exact mapGet_mapDel_self idx it.key
    · by_cases hl : p.2.locked = true
      · rw [if_pos hl]
        exact ih idx hrest
      · rw [if_neg hl]
        by_cases he : p.2.exp < t
        · rw [if_pos he]
          exact ih (mapDel idx p.2.key) hrest
        · rw [if_neg he]
          exact ih idx hrest

/-- Two unlocked, unexpired items used by the Purge counterexample. -/
def itemA : Item Nat Nat := ⟨10, 100, 20, true, false⟩

/-- Second item of the Purge counterexample, sitting after `itemA`. -/
def itemB : Item Nat Nat := ⟨11, 101, 30, true, false⟩

/-- A consistent, expiration-sorted two-entry cache state. -/
def sTwoFresh : CacheState Nat Nat := ⟨5, [(0, itemA), (1, itemB)], [(10, 0), (11, 1)], 2⟩

/-- Counterexample to claim C4 as stated: at time 5 the head node `itemA` is
lock-free and not expired, yet the sweep does not stop there: the node after
it is examined as well (the examined ids are [0, 1], not [0]). -/
theorem purge_examines_after_first_fresh :
    itemA.locked = false ∧ itemA.isExpired 5 = false ∧
    purgeExamined sTwoFresh 5 = [0, 1] := by
  decide

/-- Claim C4 as amended: the Purge sweep examines every node of the ordering
list from head to tail — it does not stop at the first lock-free unexpired
node; it removes exactly the nodes whose lock it acquires (not locked) and
whose expiry is strictly in the past, and deletes their keys from the index;
locked or unexpired nodes are kept. -/
theorem purge_full_walk (s : CacheState Key Value) (t : Int) :
    purgeExamined s t = s.order.map Prod.fst ∧
    (purge s t).order = (s.order.filter fun p => p.2.locked || !(decide (p.2.exp < t))) ∧
    (∀ id it, (id, it) ∈ s.order → it.locked = false → it.exp < t →
      mapGet (purge s t).index it.key = none) := by
  refine ⟨purgeLoop_examined s.order s.index t, purgeLoop_order s.order s.index t, ?_⟩
  intro id it hmem h1 h2
  exact purgeLoop_removed_key s.order s.index t id it hmem h1 h2

/-- The consistency invariant between the index map and the ordering list:
index keys are unique, node ids are unique and below the allocator, every
index binding points to a live node carrying that key, and every node is
indexed under its stored key. -/
def Consistent (s : CacheState Key Value) : Prop :=
  (s.index.map Prod.fst).Nodup ∧
  (s.order.map Prod.fst).Nodup ∧
  (∀ k id, mapGet s.index k = some id → ∃ it, (id, it) ∈ s.order ∧ it.key = k) ∧
  (∀ id it, (id, it) ∈ s.order → mapGet s.index it.key = some id) ∧
  (∀ p ∈ s.order, p.1 < s.nextId)

theorem consistent_empty (ttl : Int) : Consistent (empty ttl : CacheState Key Value) := by
  refine ⟨List.nodup_nil, List.nodup_nil, ?_, ?_, ?_⟩
  · intro k id h
    cases h
  · intro id it h
    cases h
  · intro p h
    cases h

theorem mem_removeId (l : List (Nat × Item Key Value)) (id0 id : Nat) (it : Item Key Value) :
    (id, it) ∈ removeId l id0 ↔ (id, it) ∈ l ∧ id ≠ id0 := by
  induction l with
  | nil => simp [removeId]
  | cons p rest ih =>
    unfold removeId
    by_cases h : p.1 = id0
    · rw [if_pos h]
      rw [ih]
      constructor
      · rintro ⟨hm, hne⟩
        exact ⟨List.mem_cons_of_mem p hm, hne⟩
      · rintro ⟨hm, hne⟩
        rcases List.mem_cons.mp hm with hp | hr
        · exact absurd (by rw [← hp] at h; exact h) hne
        · exact ⟨hr, hne⟩
    · rw [if_neg h]
      constructor
      · intro hm
        rcases List.mem_cons.mp hm with hp | hr
        · refine ⟨by rw [hp]; exact List.mem_cons_self p rest, ?_⟩
          intro he
          apply h
          rw [← hp, he]
        · exact ⟨List.mem_cons_of_mem p (ih.mp hr).1, (ih.mp hr).2⟩
      · rintro ⟨hm, hne⟩
        rcases List.mem_cons.mp hm with hp | hr
        · rw [hp]
          exact List.mem_cons_self _ _
        · exact List.mem_cons_of_mem p (ih.mpr ⟨hr, hne⟩)

theorem nodup_id_eq (l : List (Nat × Item Key Value)) (h : (l.map Prod.fst).Nodup)
    (id : Nat) (a b : Item Key Value) (ha : (id, a) ∈ l) (hb : (id, b) ∈ l) : a = b := by
  induction l with
  | nil => cases ha
  | cons p rest ih =>
    rw [List.map_cons, List.nodup_cons] at h
    rcases List.mem_cons.mp ha with hpa | hra
    · rcases List.mem_cons.mp hb with hpb | hrb
      · rw [← hpa] at hpb
        exact (Prod.mk.injEq _ _ _ _).mp hpb.symm |>.2
      · exfalso
        apply h.1
        have hmem : id ∈ List.map Prod.fst rest := List.mem_map_of_mem Prod.fst hrb
        rw [← hpa]
        exact hmem
    · rcases List.mem_cons.mp hb with hpb | hrb
      · exfalso
        apply h.1
        have hmem : id ∈ List.map Prod.fst rest := List.mem_map_of_mem Prod.fst hra
        rw [← hpb]
        exact hmem
      · exact ih h.2 hra hrb

/-- Del deletes the index binding of the key unconditionally. -/
theorem mapGet_del_self (s : CacheState Key Value) (k : Key) :
    mapGet (del s k).index k = none := by
  unfold del
  cases hm : mapGet s.index k with
  | none => exact hm
  | some id => exact mapGet_mapDel_self s.index k

/-- Claim C9: Del removes the key from the index and its node from the list
when present and is a no-op when absent; after Set(k, v) followed by Del(k), a
Get(k) reports not-found. -/
theorem del_removes (s : CacheState Key Value) (k : Key) (hc : Consistent s) :
    (mapGet s.index k = none → del s k = s) ∧
    mapGet (del s k).index k = none ∧
    (∀ id it, ((id, it) ∈ (del s k).order ↔ (id, it) ∈ s.order ∧ it.key ≠ k)) ∧
    (∀ (v : Value) (t t2 : Int), (get (del (set s k v t) k) k t2).2 = false) := by
  obtain ⟨hik, hoid, hfwd, hbwd, hlt⟩ := hc
  refine ⟨?_, mapGet_del_self s k, ?_, ?_⟩
  · intro h
    unfold del
    rw [h]
  · intro id it
    unfold del
    cases hm : mapGet s.index k with
    | none =>
      show (id, it) ∈ s.order ↔ (id, it) ∈ s.order ∧ it.key ≠ k
      constructor
      · intro hmem
        refine ⟨hmem, ?_⟩
        intro he
        have hb := hbwd id it hmem
        rw [he, hm] at hb
        cases hb
      · exact fun hp => hp.1
    | some id0 =>
      show (id, it) ∈ removeId s.order id0 ↔ (id, it) ∈ s.order ∧ it.key ≠ k
      rw [mem_removeId]
      constructor
      · rintro ⟨hmem, hne⟩
        refine ⟨hmem, ?_⟩
        intro he
        apply hne
        have hb := hbwd id it hmem
        rw [he, hm] at hb
        exact ((Option.some.injEq _ _).mp hb).symm
      · rintro ⟨hmem, hkne⟩
        refine ⟨hmem, ?_⟩
        intro he
        obtain ⟨it0, hmem0, hkey0⟩ := hfwd k id0 hm
        rw [← he] at hmem0
        have heq := nodup_id_eq s.order hoid id it it0 hmem hmem0
        apply hkne
        rw [heq, hkey0]
  · intro v t t2
    unfold get
    rw [mapGet_del_self (set s k v t) k]

/-- Claim C10: a placeholder created by getOrCreateElement has isSet = false
and a future expiry yet Get reports not-found for it at every time; Get
reports found only for entries whose isSet flag is true (set by Set or by a
successful refresh); and a failed refresh on a fresh key leaves no set entry
behind beyond those already present. -/
theorem placeholder_never_visible (s : CacheState Key Value) (k : Key) (t1 : Int)
    (h : mapGet s.index k = none) (hid : ∀ p ∈ s.order, p.1 ≠ s.nextId) :
    (entryOf (getOrCreateElement s k t1).1 k = some ⟨k, default, t1 + s.ttl, false, false⟩ ∧
      (∀ t, get (getOrCreateElement s k t1).1 k t = (default, false))) ∧
    (∀ (s' : CacheState Key Value) (k' : Key) (t : Int) (v : Value),
      get s' k' t = (v, true) → ∃ it, entryOf s' k' = some it ∧ it.set = true ∧ it.val = v) ∧
    (∀ (z : Value) (e : GoError) (t2 : Int),
      ∀ p ∈ (getOrRefresh s k (z, some e) t1 t2).state.order, p.2.set = false ∨ p ∈ s.order) := by
  have hfind :
      findItem (s.order ++ [(s.nextId, (⟨k, default, t1 + s.ttl, false, false⟩ :
        Item Key Value))]) s.nextId = some ⟨k, default, t1 + s.ttl, false, false⟩ :=
    findItem_append_self s.order s.nextId _ hid
  have hcreate : (getOrCreateElement s k t1).1 =
      ⟨s.ttl, s.order ++ [(s.nextId, ⟨k, default, t1 + s.ttl, false, false⟩)],
        mapSet s.index k s.nextId, s.nextId + 1⟩ := by
    unfold getOrCreateElement
    rw [h]
  refine ⟨⟨?_, ?_⟩, ?_, ?_⟩
  · rw [hcreate]
    unfold entryOf
    simp only [mapGet_mapSet_self]
    exact hfind
  · intro t
    rw [hcreate]
    unfold get
    simp only [mapGet_mapSet_self, hfind]
    have hv2 : (Item.isValid (⟨k, default, t1 + s.ttl, false, false⟩ : Item Key Value) t) = false := by
      unfold Item.isValid
      simp
    rw [hv2]
    simp
  · intro s' k' t v hget
    unfold get at hget
    cases hm : mapGet s'.index k' with
    | none =>
      rw [hm] at hget
      have hget2 : ((default : Value), false) = (v, true) := hget
      simp at hget2
    | some id =>
      rw [hm] at hget
      have hget2 : (match findItem s'.order id with
          | none => ((default : Value), false)
          | some it => if it.isValid t = true then (it.val, true) else (default, false)) =
          (v, true) := hget
      cases hf : findItem s'.order id with
      | none =>
        rw [hf] at hget2
        simp at hget2
      | some it =>
        rw [hf] at hget2
        have hget3 : (if it.isValid t = true then (it.val, true)
            else ((default : Value), false)) = (v, true) := hget2
        by_cases hv : it.isValid t = true
        · rw [if_pos hv] at hget3
          refine ⟨it, ?_, ?_, ?_⟩
          · unfold entryOf
            rw [hm]
            exact hf
          · unfold Item.isValid at hv
            exact (Bool.and_eq_true_iff.mp hv).1
          · exact ((Prod.mk.injEq _ _ _ _).mp hget3).1
        · rw [if_neg hv] at hget3
          simp at hget3
  · intro z e t2 p hp
    rw [getOrRefresh_err_fresh_state s k z e t1 t2 h hid] at hp
    rcases List.mem_append.mp hp with hold | hnew
    · exact Or.inr hold
    · left
      have : p = (s.nextId, (⟨k, default, t1 + s.ttl, false, false⟩ : Item Key Value)) := by
        simpa using hnew
      rw [this]

/-- Witness for C10 at a concrete input. -/
theorem placeholder_never_visible_witness :
    (entryOf (getOrCreateElement (empty 10 : CacheState Nat Nat) 1 0).1 1 =
        some ⟨1, 0, 10, false, false⟩ ∧
      (∀ t, get (getOrCreateElement (empty 10 : CacheState Nat Nat) 1 0).1 1 t = (0, false))) ∧
    (∀ (s' : CacheState Nat Nat) (k' : Nat) (t : Int) (v : Nat),
      get s' k' t = (v, true) → ∃ it, entryOf s' k' = some it ∧ it.set = true ∧ it.val = v) ∧
    (∀ (z : Nat) (e : GoError) (t2 : Int),
      ∀ p ∈ (getOrRefresh (empty 10 : CacheState Nat Nat) 1 (z, some e) 0 t2).state.order,
        p.2.set = false ∨ p ∈ (empty 10 : CacheState Nat Nat).order) :=
  placeholder_never_visible (empty 10 : CacheState Nat Nat) 1 0 (by decide) (by simp [empty])

/-- Witness for C9 at a concrete input. -/
theorem del_removes_witness :
    (mapGet (empty 10 : CacheState Nat Nat).index 1 = none →
      del (empty 10 : CacheState Nat Nat) 1 = empty 10) ∧
    mapGet (del (empty 10 : CacheState Nat Nat) 1).index 1 = none ∧
    (∀ id it, ((id, it) ∈ (del (empty 10 : CacheState Nat Nat) 1).order ↔
      (id, it) ∈ (empty 10 : CacheState Nat Nat).order ∧ it.key ≠ 1)) ∧
    (∀ (v : Nat) (t t2 : Int),
      (get (del (set (empty 10 : CacheState Nat Nat) 1 v t) 1) 1 t2).2 = false) :=
  del_removes (empty 10 : CacheState Nat Nat) 1 (consistent_empty 10)

theorem mapGet_none_iff (m : List (Key × Nat)) (k : Key) :
    mapGet m k = none ↔ k ∉ m.map Prod.fst := by
  induction m with
  | nil => simp [mapGet]
  | cons p rest ih =>
    unfold mapGet
    by_cases h : k = p.1
    · rw [if_pos h]
      simp [h]
    · rw [if_neg h]
      simp [h, ih]

theorem mapSet_of_none (m : List (Key × Nat)) (k : Key) (id : Nat)
    (h : mapGet m k = none) : mapSet m k id = m ++ [(k, id)] := by
  induction m with
  | nil => rfl
  | cons p rest ih =>
    unfold mapGet at h
    unfold mapSet
    by_cases hk : k = p.1
    · rw [if_pos hk] at h
      cases h
    · rw [if_neg hk] at h
      rw [if_neg hk, ih h]
      rfl

theorem mapDel_sublist (m : List (Key × Nat)) (k : Key) :
    List.Sublist (mapDel m k) m := by
  induction m with
  | nil => exact List.Sublist.refl []
  | cons p rest ih =>
    unfold mapDel
    by_cases h : p.1 = k
    · rw [if_pos h]
      exact List.Sublist.cons p ih
    · rw [if_neg h]
      exact List.Sublist.cons₂ p ih

theorem removeId_sublist (l : List (Nat × Item Key Value)) (id : Nat) :
    List.Sublist (removeId l id) l := by
  induction l with
  | nil => exact List.Sublist.refl []
  | cons p rest ih =>
    unfold removeId
    by_cases h : p.1 = id
    · rw [if_pos h]
      exact List.Sublist.cons p ih
    · rw [if_neg h]
      exact List.Sublist.cons₂ p ih

theorem not_mem_map_fst_removeId (l : List (Nat × Item Key Value)) (id : Nat) :
    id ∉ (removeId l id).map Prod.fst := by
  induction l with
  | nil => simp [removeId]
  | cons p rest ih =>
    unfold removeId
    by_cases h : p.1 = id
    · rw [if_pos h]
      exact ih
    · rw [if_neg h]
      simp only [List.map_cons, List.mem_cons]
      rintro (he | hm)
      · exact h he.symm
      · exact ih hm

theorem findItem_of_mem_nodup (l : List (Nat × Item Key Value))
    (h : (l.map Prod.fst).Nodup) (id : Nat) (it : Item Key Value)
    (hmem : (id, it) ∈ l) : findItem l id = some it := by
  induction l with
  | nil => cases hmem
  | cons p rest ih =>
    rw [List.map_cons, List.nodup_cons] at h
    unfold findItem
    rcases List.mem_cons.mp hmem with hp | hr
    · rw [← hp]
      simp
    · by_cases he : id = p.1
      · exfalso
        apply h.1
        rw [← he]
        exact List.mem_map_of_mem Prod.fst hr
      · rw [if_neg he]
        exact ih h.2 hr

theorem findItem_updateItem (l : List (Nat × Item Key Value)) (id : Nat)
    (f : Item Key Value → Item Key Value) (it : Item Key Value)
    (h : findItem l id = some it) :
    findItem (updateItem l id f) id = some (f it) := by
  induction l with
  | nil => cases h
  | cons p rest ih =>
    unfold findItem at h
    by_cases he : id = p.1
    · rw [if_pos he] at h
      have hit : p.2 = it := (Option.some.injEq _ _).mp h
      have hc : p.1 = id := he.symm
      simp [updateItem, findItem, hc, hit]
    · rw [if_neg he] at h
      have hc : ¬ p.1 = id := fun hx => he hx.symm
      simp [updateItem, findItem, hc, he, ih h]

theorem removeId_updateItem (l : List (Nat × Item Key Value)) (id : Nat)
    (f : Item Key Value → Item Key Value) :
    removeId (updateItem l id f) id = removeId l id := by
  induction l with
  | nil => rfl
  | cons p rest ih =>
    by_cases he : p.1 = id
    · simp [updateItem, removeId, he, ih]
    · simp [updateItem, removeId, he, ih]

theorem mapGet_mapDel_some (m : List (Key × Nat)) (k k' : Key) (id : Nat)
    (h : mapGet (mapDel m k') k = some id) : mapGet m k = some id := by
  by_cases he : k = k'
  · rw [he, mapGet_mapDel_self] at h
    cases h
  · rw [mapGet_mapDel_ne m k' k he] at h
    exact h

theorem mapGet_append_some (m l2 : List (Key × Nat)) (k : Key) (id : Nat)
    (h : mapGet m k = some id) : mapGet (m ++ l2) k = some id := by
  induction m with
  | nil => cases h
  | cons p rest ih =>
    unfold mapGet at h ⊢
    by_cases hk : k = p.1
    · rw [if_pos hk] at h
      rw [List.cons_append]
      show (if k = p.1 then some p.2 else mapGet (rest ++ l2) k) = some id
      rw [if_pos hk]
      exact h
    · rw [if_neg hk] at h
      rw [List.cons_append]
      show (if k = p.1 then some p.2 else mapGet (rest ++ l2) k) = some id
      rw [if_neg hk]
      exact ih h

theorem mapGet_append_none (m l2 : List (Key × Nat)) (k : Key)
    (h : mapGet m k = none) : mapGet (m ++ l2) k = mapGet l2 k := by
  induction m with
  | nil => rfl
  | cons p rest ih =>
    unfold mapGet at h
    by_cases hk : k = p.1
    · rw [if_pos hk] at h
      cases h
    · rw [if_neg hk] at h
      rw [List.cons_append]
      show (if k = p.1 then some p.2 else mapGet (rest ++ l2) k) = mapGet l2 k
      rw [if_neg hk]
      exact ih h

/-- Pushing a fresh node at the back of the list and indexing it under a key
not yet present preserves the consistency invariant. This covers the insert
branch of Set and the placeholder creation of getOrCreateElement. -/
theorem consistent_push (s : CacheState Key Value) (k : Key) (it : Item Key Value)
    (ttl2 : Int) (hc : Consistent s) (hm : mapGet s.index k = none) (hk : it.key = k) :
    Consistent ⟨ttl2, s.order ++ [(s.nextId, it)], mapSet s.index k s.nextId, s.nextId + 1⟩ := by
  obtain ⟨hik, hoid, hfwd, hbwd, hlt⟩ := hc
  rw [mapSet_of_none s.index k s.nextId hm]
  refine ⟨?_, ?_, ?_, ?_, ?_⟩
  · rw [List.map_append, List.nodup_append]
    refine ⟨hik, by simp, ?_⟩
    intro a ha hb
    simp only [List.map_cons, List.map_nil, List.mem_singleton] at hb
    rw [hb] at ha
    exact (mapGet_none_iff s.index k).mp hm ha
  · rw [List.map_append, List.nodup_append]
    refine ⟨hoid, by simp, ?_⟩
    intro a ha hb
    simp only [List.map_cons, List.map_nil, List.mem_singleton] at hb
    rw [hb] at ha
    obtain ⟨p, hp, hpe⟩ := List.mem_map.mp ha
    have := hlt p hp
    omega
  · intro k' id' h'
    cases hmk : mapGet s.index k' with
    | some id0 =>
      rw [mapGet_append_some s.index [(k, s.nextId)] k' id0 hmk] at h'
      have hid : id0 = id' := (Option.some.injEq _ _).mp h'
      obtain ⟨itA, hmemA, hkeyA⟩ := hfwd k' id0 hmk
      rw [hid] at hmemA
      exact ⟨itA, List.mem_append_left _ hmemA, hkeyA⟩
    | none =>
      rw [mapGet_append_none s.index [(k, s.nextId)] k' hmk] at h'
      unfold mapGet at h'
      by_cases hkk : k' = k
      · rw [if_pos hkk] at h'
        have hid : s.nextId = id' := (Option.some.injEq _ _).mp h'
        refine ⟨it, ?_, by rw [hk, hkk]⟩
        rw [← hid]
        exact List.mem_append_right _ (List.mem_singleton.mpr rfl)
      · rw [if_neg hkk] at h'
        cases h'
  · intro id' it' hmem
    rcases List.mem_append.mp hmem with hold | hnew
    · have hb := hbwd id' it' hold
      exact mapGet_append_some s.index [(k, s.nextId)] it'.key id' hb
    · have hpe : (id', it') = (s.nextId, it) := List.mem_singleton.mp hnew
      have hid : id' = s.nextId := ((Prod.mk.injEq _ _ _ _).mp hpe).1
      have hit : it' = it := ((Prod.mk.injEq _ _ _ _).mp hpe).2
      rw [hit, hk, hid]
      rw [mapGet_append_none s.index [(k, s.nextId)] k hm]
      unfold mapGet
      rw [if_pos rfl]
  · intro p hp
    rcases List.mem_append.mp hp with hold | hnew
    · have h1 := hlt p hold
      show p.1 < s.nextId + 1
      omega
    · have hpe : p = (s.nextId, it) := List.mem_singleton.mp hnew
      rw [hpe]
      show s.nextId < s.nextId + 1
      omega

/-- Replacing the node a key points to by a node with the same id and key at
the back of the list preserves the consistency invariant. This covers the
overwrite branch of Set and the success path of GetOrRefresh. -/
theorem consistent_replace (s : CacheState Key Value) (k : Key) (id : Nat)
    (newIt : Item Key Value) (ttl2 : Int) (hc : Consistent s)
    (hm : mapGet s.index k = some id) (hk : newIt.key = k) :
    Consistent ⟨ttl2, removeId s.order id ++ [(id, newIt)], s.index, s.nextId⟩ := by
  obtain ⟨hik, hoid, hfwd, hbwd, hlt⟩ := hc
  obtain ⟨itk, hmemk, hkeyk⟩ := hfwd k id hm
  refine ⟨hik, ?_, ?_, ?_, ?_⟩
  · rw [List.map_append, List.nodup_append]
    refine ⟨List.Nodup.sublist (List.Sublist.map Prod.fst (removeId_sublist s.order id)) hoid,
      by simp, ?_⟩
    intro a ha hb
    simp only [List.map_cons, List.map_nil, List.mem_singleton] at hb
    rw [hb] at ha
    exact not_mem_map_fst_removeId s.order id ha
  · intro k' id' h'
    obtain ⟨itA, hmemA, hkeyA⟩ := hfwd k' id' h'
    by_cases hid : id' = id
    · have hk' : k' = k := by
        rw [hid] at hmemA
        have heq := nodup_id_eq s.order hoid id itA itk hmemA hmemk
        rw [← hkeyA, heq, hkeyk]
      refine ⟨newIt, ?_, by rw [hk, hk']⟩
      rw [hid]
      exact List.mem_append_right _ (List.mem_singleton.mpr rfl)
    · refine ⟨itA, ?_, hkeyA⟩
      exact List.mem_append_left _ ((mem_removeId s.order id id' itA).mpr ⟨hmemA, hid⟩)
  · intro id' it' hmem
    rcases List.mem_append.mp hmem with hold | hnew
    · exact hbwd id' it' ((mem_removeId s.order id id' it').mp hold).1
    · have hpe : (id', it') = (id, newIt) := List.mem_singleton.mp hnew
      have hid : id' = id := ((Prod.mk.injEq _ _ _ _).mp hpe).1
      have hit : it' = newIt := ((Prod.mk.injEq _ _ _ _).mp hpe).2
      rw [hit, hk, hid]
      exact hm
  · intro p hp
    rcases List.mem_append.mp hp with hold | hnew
    · exact hlt p ((removeId_sublist s.order id).subset hold)
    · have hpe : p = (id, newIt) := List.mem_singleton.mp hnew
      rw [hpe]
      exact hlt (id, itk) hmemk

theorem set_consistent (s : CacheState Key Value) (k : Key) (v : Value) (t : Int)
    (hc : Consistent s) : Consistent (set s k v t) := by
  unfold set
  cases hm : mapGet s.index k with
  | none => exact consistent_push s k ⟨k, v, t + s.ttl, true, false⟩ s.ttl hc hm rfl
  | some id =>
    obtain ⟨itk, hmemk, hkeyk⟩ := hc.2.2.1 k id hm
    have hfk : findItem s.order id = some itk := findItem_of_mem_nodup s.order hc.2.1 id itk hmemk
    have hfu : findItem (updateItem s.order id fun it => ⟨it.key, v, t + s.ttl, true, it.locked⟩) id
        = some ⟨itk.key, v, t + s.ttl, true, itk.locked⟩ :=
      findItem_updateItem s.order id _ itk hfk
    have hmtb : moveToBack (updateItem s.order id
          fun it => ⟨it.key, v, t + s.ttl, true, it.locked⟩) id =
        removeId s.order id ++ [(id, ⟨itk.key, v, t + s.ttl, true, itk.locked⟩)] := by
      unfold moveToBack
      rw [hfu, removeId_updateItem]
    show Consistent ⟨s.ttl,
      moveToBack (updateItem s.order id fun it => ⟨it.key, v, t + s.ttl, true, it.locked⟩) id,
      s.index, s.nextId⟩
    rw [hmtb]
    exact consistent_replace s k id ⟨itk.key, v, t + s.ttl, true, itk.locked⟩ s.ttl hc hm hkeyk

theorem getOrCreateElement_consistent (s : CacheState Key Value) (k : Key) (t : Int)
    (hc : Consistent s) : Consistent (getOrCreateElement s k t).1 := by
  unfold getOrCreateElement
  cases hm : mapGet s.index k with
  | some id => exact hc
  | none => exact consistent_push s k ⟨k, default, t + s.ttl, false, false⟩ s.ttl hc hm rfl

theorem getOrCreateElement_mapGet (s : CacheState Key Value) (k : Key) (t : Int) :
    mapGet (getOrCreateElement s k t).1.index k = some (getOrCreateElement s k t).2 := by
  unfold getOrCreateElement
  cases hm : mapGet s.index k with
  | some id => exact hm
  | none => exact mapGet_mapSet_self s.index k s.nextId

theorem getOrRefresh_consistent (s : CacheState Key Value) (k : Key)
    (rf : Value × Option GoError) (t1 t2 : Int) (hc : Consistent s) :
    Consistent (getOrRefresh s k rf t1 t2).state := by
  have hc1 : Consistent (getOrCreateElement s k t1).1 := getOrCreateElement_consistent s k t1 hc
  have hm1 : mapGet (getOrCreateElement s k t1).1.index k = some (getOrCreateElement s k t1).2 :=
    getOrCreateElement_mapGet s k t1
  simp only [getOrRefresh]
  cases hf : findItem (getOrCreateElement s k t1).1.order (getOrCreateElement s k t1).2 with
  | none =>
    simp only [hf]
    exact hc1
  | some it =>
    simp only [hf]
    by_cases hv : it.isValid t1 = true
    · rw [if_pos hv]
      exact hc1
    · rw [if_neg hv]
      cases hrf : rf.2 with
      | some e =>
        simp only [hrf]
        exact hc1
      | none =>
        simp only [hrf]
        obtain ⟨itk, hmemk, hkeyk⟩ :=
          hc1.2.2.1 k (getOrCreateElement s k t1).2 hm1
        have hfk : findItem (getOrCreateElement s k t1).1.order (getOrCreateElement s k t1).2 =
            some itk :=
          findItem_of_mem_nodup _ hc1.2.1 _ itk hmemk
        have hit : it = itk := by
          rw [hf] at hfk
          exact (Option.some.injEq _ _).mp hfk.symm |>.symm
        have hfu : findItem (updateItem (getOrCreateElement s k t1).1.order
              (getOrCreateElement s k t1).2
              fun j => ⟨j.key, rf.1, t2 + (getOrCreateElement s k t1).1.ttl, true, j.locked⟩)
            (getOrCreateElement s k t1).2 =
            some ⟨it.key, rf.1, t2 + (getOrCreateElement s k t1).1.ttl, true, it.locked⟩ :=
          findItem_updateItem _ _ _ it hf
        have hmtb : moveToBack (updateItem (getOrCreateElement s k t1).1.order
              (getOrCreateElement s k t1).2
              fun j => ⟨j.key, rf.1, t2 + (getOrCreateElement s k t1).1.ttl, true, j.locked⟩)
            (getOrCreateElement s k t1).2 =
            removeId (getOrCreateElement s k t1).1.order (getOrCreateElement s k t1).2 ++
              [((getOrCreateElement s k t1).2,
                ⟨it.key, rf.1, t2 + (getOrCreateElement s k t1).1.ttl, true, it.locked⟩)] := by
          unfold moveToBack
          rw [hfu, removeId_updateItem]
        show Consistent ⟨(getOrCreateElement s k t1).1.ttl,
          moveToBack (updateItem (getOrCreateElement s k t1).1.order
            (getOrCreateElement s k t1).2
            fun j => ⟨j.key, rf.1, t2 + (getOrCreateElement s k t1).1.ttl, true, j.locked⟩)
            (getOrCreateElement s k t1).2,
          (getOrCreateElement s k t1).1.index, (getOrCreateElement s k t1).1.nextId⟩
        rw [hmtb]
        refine consistent_replace (getOrCreateElement s k t1).1 k (getOrCreateElement s k t1).2
          ⟨it.key, rf.1, t2 + (getOrCreateElement s k t1).1.ttl, true, it.locked⟩
          (getOrCreateElement s k t1).1.ttl hc1 hm1 ?_
        show it.key = k
        rw [hit, hkeyk]

theorem del_consistent (s : CacheState Key Value) (k : Key) (hc : Consistent s) :
    Consistent (del s k) := by
  obtain ⟨hik, hoid, hfwd, hbwd, hlt⟩ := hc
  unfold del
  cases hm : mapGet s.index k with
  | none => exact ⟨hik, hoid, hfwd, hbwd, hlt⟩
  | some id =>
    refine ⟨?_, ?_, ?_, ?_, ?_⟩
    · exact List.Nodup.sublist (List.Sublist.map Prod.fst (mapDel_sublist s.index k)) hik
    · exact List.Nodup.sublist (List.Sublist.map Prod.fst (removeId_sublist s.order id)) hoid
    · intro k' id' h'
      have h'' : mapGet s.index k' = some id' := mapGet_mapDel_some s.index k' k id' h'
      obtain ⟨itA, hmemA, hkeyA⟩ := hfwd k' id' h''
      refine ⟨itA, ?_, hkeyA⟩
      rw [mem_removeId]
      refine ⟨hmemA, ?_⟩
      intro he
      obtain ⟨itk, hmemk, hkeyk⟩ := hfwd k id hm
      rw [he] at hmemA
      have heq := nodup_id_eq s.order hoid id itA itk hmemA hmemk
      have hk'k : k' = k := by rw [← hkeyA, heq, hkeyk]
      rw [hk'k, mapGet_mapDel_self] at h'
      cases h'
    · intro id' it' hmem
      rw [mem_removeId] at hmem
      have hb := hbwd id' it' hmem.1
      have hkne : it'.key ≠ k := by
        intro he
        rw [he, hm] at hb
        exact hmem.2 ((Option.some.injEq _ _).mp hb).symm
      rw [mapGet_mapDel_ne s.index k it'.key hkne]
      exact hb
    · intro p hp
      exact hlt p ((removeId_sublist s.order id).subset hp)

theorem purgeLoop_index_keys_nodup (l : List (Nat × Item Key Value)) (idx : List (Key × Nat))
    (t : Int) (h : (idx.map Prod.fst).Nodup) :
    ((purgeLoop l idx t).index.map Prod.fst).Nodup := by
  induction l generalizing idx with
  | nil => exact h
  | cons p rest ih =>
    unfold purgeLoop
    by_cases hl : p.2.locked = true
    · rw [if_pos hl]
      exact ih idx h
    · rw [if_neg hl]
      by_cases he : p.2.exp < t
      · rw [if_pos he]
        exact ih (mapDel idx p.2.key)
          (List.Nodup.sublist (List.Sublist.map Prod.fst (mapDel_sublist idx p.2.key)) h)
      · rw [if_neg he]
        exact ih idx h

theorem purgeLoop_index_some (l : List (Nat × Item Key Value)) (idx : List (Key × Nat))
    (t : Int) (k : Key) (id : Nat)
    (h : mapGet (purgeLoop l idx t).index k = some id) : mapGet idx k = some id := by
  induction l generalizing idx with
  | nil => exact h
  | cons p rest ih =>
    unfold purgeLoop at h
    by_cases hl : p.2.locked = true
    · rw [if_pos hl] at h
      exact ih idx h
    · rw [if_neg hl] at h
      by_cases he : p.2.exp < t
      · rw [if_pos he] at h
        exact mapGet_mapDel_some idx k p.2.key id (ih (mapDel idx p.2.key) h)
      · rw [if_neg he] at h
        exact ih idx h

theorem purgeLoop_index_keep (l : List (Nat × Item Key Value)) (idx : List (Key × Nat))
    (t : Int) (k : Key)
    (h : ∀ id2 it2, (id2, it2) ∈ l → it2.locked = false → it2.exp < t → it2.key ≠ k) :
    mapGet (purgeLoop l idx t).index k = mapGet idx k := by
  induction l generalizing idx with
  | nil => rfl
  | cons p rest ih =>
    unfold purgeLoop
    by_cases hl : p.2.locked = true
    · rw [if_pos hl]
      exact ih idx fun id2 it2 hm2 => h id2 it2 (List.mem_cons_of_mem p hm2)
    · rw [if_neg hl]
      by_cases he : p.2.exp < t
      · rw [if_pos he]
        have hl' : p.2.locked = false := by
          cases hb : p.2.locked
          · rfl
          · exact absurd hb hl
        have hkne : p.2.key ≠ k :=
          h p.1 p.2 (by exact List.mem_cons_self _ _) hl' he
        rw [ih (mapDel idx p.2.key) fun id2 it2 hm2 => h id2 it2 (List.mem_cons_of_mem p hm2)]
        exact mapGet_mapDel_ne idx p.2.key k fun hx => hkne hx.symm
      · rw [if_neg he]
        exact ih idx fun id2 it2 hm2 => h id2 it2 (List.mem_cons_of_mem p hm2)

theorem purge_consistent (s : CacheState Key Value) (t : Int) (hc : Consistent s) :
    Consistent (purge s t) := by
  obtain ⟨hik, hoid, hfwd, hbwd, hlt⟩ := hc
  show Consistent ⟨s.ttl, (purgeLoop s.order s.index t).order,
    (purgeLoop s.order s.index t).index, s.nextId⟩
  refine ⟨?_, ?_, ?_, ?_, ?_⟩
  · exact purgeLoop_index_keys_nodup s.order s.index t hik
  · show ((purgeLoop s.order s.index t).order.map Prod.fst).Nodup
    rw [purgeLoop_order]
    exact List.Nodup.sublist (List.Sublist.map Prod.fst (List.filter_sublist s.order)) hoid
  · intro k id h'
    have h'2 : mapGet (purgeLoop s.order s.index t).index k = some id := h'
    have h'' := purgeLoop_index_some s.order s.index t k id h'2
    obtain ⟨it, hmem, hkey⟩ := hfwd k id h''
    refine ⟨it, ?_, hkey⟩
    show (id, it) ∈ (purgeLoop s.order s.index t).order
    rw [purgeLoop_order, List.mem_filter]
    refine ⟨hmem, ?_⟩
    by_cases hl : it.locked = true
    · simp [hl]
    · have hl' : it.locked = false := by
        cases hb : it.locked
        · rfl
        · exact absurd hb hl
      by_cases he : it.exp < t
      · exfalso
        have hnone := purgeLoop_removed_key s.order s.index t id it hmem hl' he
        rw [hkey] at hnone
        rw [hnone] at h'2
        cases h'2
      · simp [hl', he]
  · intro id it hmem
    have hmem2 : (id, it) ∈ (purgeLoop s.order s.index t).order := hmem
    rw [purgeLoop_order, List.mem_filter] at hmem2
    have hb := hbwd id it hmem2.1
    show mapGet (purgeLoop s.order s.index t).index it.key = some id
    rw [purgeLoop_index_keep s.order s.index t it.key ?_]
    · exact hb
    · intro id2 it2 hm2 hl2 he2 hkeq
      have hb2 := hbwd id2 it2 hm2
      rw [hkeq, hb] at hb2
      have hid : id2 = id := ((Option.some.injEq _ _).mp hb2).symm
      rw [hid] at hm2
      have hiteq := nodup_id_eq s.order hoid id it2 it hm2 hmem2.1
      have hkeep := hmem2.2
      rw [← hiteq] at hkeep
      rw [hl2] at hkeep
      simp only [Bool.false_or] at hkeep
      rw [decide_eq_true he2] at hkeep
      cases hkeep
  · intro p hp
    have hp2 : p ∈ (purgeLoop s.order s.index t).order := hp
    rw [purgeLoop_order] at hp2
    show p.1 < s.nextId
    exact hlt p ((List.filter_sublist s.order).subset hp2)

/-- One sequential operation of the engine: Get (read-only), Set, Del,
GetOrRefresh with a given refresh outcome and its two timestamps, or Purge. -/
inductive Op (Key Value : Type) where
  | opGet (k : Key) (t : Int)
  | opSet (k : Key) (v : Value) (t : Int)
  | opDel (k : Key) (t : Int)
  | opGoR (k : Key) (rf : Value × Option GoError) (t1 t2 : Int)
  | opPurge (t : Int)
deriving DecidableEq

/-- The state transformer of one operation; Get does not mutate the state. -/
def applyOp (s : CacheState Key Value) : Op Key Value → CacheState Key Value
  | .opGet _ _ => s
  | .opSet k v t => set s k v t
  | .opDel k _ => del s k
  | .opGoR k rf t1 t2 => (getOrRefresh s k rf t1 t2).state
  | .opPurge t => purge s t

/-- Claim C8: every operation of the engine (Get, Set, Del, GetOrRefresh,
Purge) preserves the consistency invariant between the index map and the
ordering list: node ids and index keys are unique, every index binding points
to one live node whose stored key is that index key, and every node is
indexed under its stored key. -/
theorem ops_preserve_consistency (s : CacheState Key Value) (op : Op Key Value)
    (hc : Consistent s) : Consistent (applyOp s op) := by
  cases op with
  | opGet k t => exact hc
  | opSet k v t => exact set_consistent s k v t hc
  | opDel k t => exact del_consistent s k hc
  | opGoR k rf t1 t2 => exact getOrRefresh_consistent s k rf t1 t2 hc
  | opPurge t => exact purge_consistent s t hc

/-- Witness for C8 at a concrete input. -/
theorem ops_preserve_consistency_witness :
    Consistent (applyOp (empty 10 : CacheState Nat Nat) (.opSet 1 42 0)) :=
  ops_preserve_consistency (empty 10 : CacheState Nat Nat) (.opSet 1 42 0)
    (consistent_empty 10)

/-- The ordering list is non-decreasing in expiry from head to tail. -/
def SortedByExp (l : List (Nat × Item Key Value)) : Prop :=
  List.Pairwise (fun a b => a.2.exp ≤ b.2.exp) l

/-- Sortedness invariant at a lower time bound `t`: the list is sorted and
every stored expiry is at most `t + ttl` (every entry was written at or
before `t` with the shared ttl). -/
def SortInv (s : CacheState Key Value) (t : Int) : Prop :=
  SortedByExp s.order ∧ ∀ p ∈ s.order, p.2.exp ≤ t + s.ttl

theorem sorted_append_singleton (l : List (Nat × Item Key Value)) (q : Nat × Item Key Value)
    (h : SortedByExp l) (hb : ∀ p ∈ l, p.2.exp ≤ q.2.exp) : SortedByExp (l ++ [q]) := by
  unfold SortedByExp at h ⊢
  rw [List.pairwise_append]
  refine ⟨h, List.pairwise_singleton _ _, ?_⟩
  intro a ha b hb2
  have hbq : b = q := List.mem_singleton.mp hb2
  rw [hbq]
  exact hb a ha

theorem sorted_removeId (l : List (Nat × Item Key Value)) (id : Nat) (h : SortedByExp l) :
    SortedByExp (removeId l id) :=
  List.Pairwise.sublist (removeId_sublist l id) h

theorem sortinv_mono (s : CacheState Key Value) (a b : Int) (h : a ≤ b)
    (hi : SortInv s a) : SortInv s b := by
  refine ⟨hi.1, ?_⟩
  intro p hp
  have := hi.2 p hp
  omega

theorem getOrCreateElement_ttl (s : CacheState Key Value) (k : Key) (t : Int) :
    (getOrCreateElement s k t).1.ttl = s.ttl := by
  unfold getOrCreateElement
  cases hm : mapGet s.index k with
  | some id => rfl
  | none => rfl

theorem getOrCreateElement_sortinv (s : CacheState Key Value) (k : Key) (t : Int)
    (hi : SortInv s t) : SortInv (getOrCreateElement s k t).1 t := by
  unfold getOrCreateElement
  cases hm : mapGet s.index k with
  | some id => exact hi
  | none =>
    constructor
    · show SortedByExp (s.order ++ [(s.nextId, ⟨k, default, t + s.ttl, false, false⟩)])
      refine sorted_append_singleton s.order _ hi.1 ?_
      intro p hp
      exact hi.2 p hp
    · intro p hp
      show p.2.exp ≤ t + s.ttl
      rcases List.mem_append.mp hp with hold | hnew
      · exact hi.2 p hold
      · have hpe : p = (s.nextId, ⟨k, default, t + s.ttl, false, false⟩) :=
          List.mem_singleton.mp hnew
        rw [hpe]

theorem set_sortinv (s : CacheState Key Value) (k : Key) (v : Value) (t : Int)
    (hc : Consistent s) (hi : SortInv s t) : SortInv (set s k v t) t := by
  unfold set
  cases hm : mapGet s.index k with
  | none =>
    constructor
    · show SortedByExp (s.order ++ [(s.nextId, ⟨k, v, t + s.ttl, true, false⟩)])
      refine sorted_append_singleton s.order _ hi.1 ?_
      intro p hp
      exact hi.2 p hp
    · intro p hp
      show p.2.exp ≤ t + s.ttl
      rcases List.mem_append.mp hp with hold | hnew
      · exact hi.2 p hold
      · have hpe : p = (s.nextId, ⟨k, v, t + s.ttl, true, false⟩) := List.mem_singleton.mp hnew
        rw [hpe]
  | some id =>
    obtain ⟨itk, hmemk, hkeyk⟩ := hc.2.2.1 k id hm
    have hfk : findItem s.order id = some itk := findItem_of_mem_nodup s.order hc.2.1 id itk hmemk
    have hfu := findItem_updateItem s.order id
      (fun it => ⟨it.key, v, t + s.ttl, true, it.locked⟩) itk hfk
    have hmtb : moveToBack (updateItem s.order id
          fun it => ⟨it.key, v, t + s.ttl, true, it.locked⟩) id =
        removeId s.order id ++ [(id, ⟨itk.key, v, t + s.ttl, true, itk.locked⟩)] := by
      unfold moveToBack
      rw [hfu, removeId_updateItem]
    constructor
    · show SortedByExp (moveToBack (updateItem s.order id
        fun it => ⟨it.key, v, t + s.ttl, true, it.locked⟩) id)
      rw [hmtb]
      refine sorted_append_singleton _ _ (sorted_removeId s.order id hi.1) ?_
      intro p hp
      exact hi.2 p ((removeId_sublist s.order id).subset hp)
    · intro p hp
      have hp2 : p ∈ moveToBack (updateItem s.order id
          fun it => ⟨it.key, v, t + s.ttl, true, it.locked⟩) id := hp
      rw [hmtb] at hp2
      show p.2.exp ≤ t + s.ttl
      rcases List.mem_append.mp hp2 with hold | hnew
      · exact hi.2 p ((removeId_sublist s.order id).subset hold)
      · have hpe : p = (id, ⟨itk.key, v, t + s.ttl, true, itk.locked⟩) :=
          List.mem_singleton.mp hnew
        rw [hpe]

theorem gor_sortinv (s : CacheState Key Value) (k : Key) (rf : Value × Option GoError)
    (t1 t2 : Int) (h12 : t1 ≤ t2) (hc : Consistent s) (hi : SortInv s t1) :
    SortInv (getOrRefresh s k rf t1 t2).state t2 := by
  have hc1 : Consistent (getOrCreateElement s k t1).1 := getOrCreateElement_consistent s k t1 hc
  have hi1 : SortInv (getOrCreateElement s k t1).1 t1 := getOrCreateElement_sortinv s k t1 hi
  simp only [getOrRefresh]
  cases hf : findItem (getOrCreateElement s k t1).1.order (getOrCreateElement s k t1).2 with
  | none =>
    simp only [hf]
    exact sortinv_mono _ t1 t2 h12 hi1
  | some it =>
    simp only [hf]
    by_cases hv : it.isValid t1 = true
    · rw [if_pos hv]
      exact sortinv_mono _ t1 t2 h12 hi1
    · rw [if_neg hv]
      cases hrf : rf.2 with
      | some e =>
        simp only [hrf]
        exact sortinv_mono _ t1 t2 h12 hi1
      | none =>
        simp only [hrf]
        have hfu := findItem_updateItem (getOrCreateElement s k t1).1.order
          (getOrCreateElement s k t1).2
          (fun j => ⟨j.key, rf.1, t2 + (getOrCreateElement s k t1).1.ttl, true, j.locked⟩) it hf
        have hmtb : moveToBack (updateItem (getOrCreateElement s k t1).1.order
              (getOrCreateElement s k t1).2
              fun j => ⟨j.key, rf.1, t2 + (getOrCreateElement s k t1).1.ttl, true, j.locked⟩)
            (getOrCreateElement s k t1).2 =
            removeId (getOrCreateElement s k t1).1.order (getOrCreateElement s k t1).2 ++
              [((getOrCreateElement s k t1).2,
                ⟨it.key, rf.1, t2 + (getOrCreateElement s k t1).1.ttl, true, it.locked⟩)] := by
          unfold moveToBack
          rw [hfu, removeId_updateItem]
        have httl := getOrCreateElement_ttl s k t1
        constructor
        · show SortedByExp (moveToBack (updateItem (getOrCreateElement s k t1).1.order
            (getOrCreateElement s k t1).2
            fun j => ⟨j.key, rf.1, t2 + (getOrCreateElement s k t1).1.ttl, true, j.locked⟩)
            (getOrCreateElement s k t1).2)
          rw [hmtb]
          refine sorted_append_singleton _ _ (sorted_removeId _ _ hi1.1) ?_
          intro p hp
          have h1 := hi1.2 p ((removeId_sublist _ _).subset hp)
          show p.2.exp ≤ t2 + (getOrCreateElement s k t1).1.ttl
          rw [httl] at h1 ⊢
          omega
        · intro p hp
          have hp2 : p ∈ moveToBack (updateItem (getOrCreateElement s k t1).1.order
              (getOrCreateElement s k t1).2
              fun j => ⟨j.key, rf.1, t2 + (getOrCreateElement s k t1).1.ttl, true, j.locked⟩)
              (getOrCreateElement s k t1).2 := hp
          rw [hmtb] at hp2
          show p.2.exp ≤ t2 + (getOrCreateElement s k t1).1.ttl
          rcases List.mem_append.mp hp2 with hold | hnew
          · have h1 := hi1.2 p ((removeId_sublist _ _).subset hold)
            rw [httl] at h1 ⊢
            omega
          · have hpe : p = ((getOrCreateElement s k t1).2,
                ⟨it.key, rf.1, t2 + (getOrCreateElement s k t1).1.ttl, true, it.locked⟩) :=
              List.mem_singleton.mp hnew
            rw [hpe]

/-- Whether the operation is a write (Set) or a get-or-refresh. -/
def isWriteOp : Op Key Value → Bool
  | .opSet _ _ _ => true
  | .opGoR _ _ _ _ => true
  | _ => false

/-- The time at which an operation starts. -/
def opStart : Op Key Value → Int
  | .opGet _ t => t
  | .opSet _ _ t => t
  | .opDel _ t => t
  | .opGoR _ _ t1 _ => t1
  | .opPurge t => t

/-- The time at which an operation ends. For GetOrRefresh this is the time of
the post-refresh expiry computation. -/
def opEnd : Op Key Value → Int
  | .opGet _ t => t
  | .opSet _ _ t => t
  | .opDel _ t => t
  | .opGoR _ _ _ t2 => t2
  | .opPurge t => t

/-- Timestamps along an operation sequence are non-decreasing (the wall clock
is monotone). -/
def chrono : Int → List (Op Key Value) → Bool
  | _, [] => true
  | t, op :: rest =>
    decide (t ≤ opStart op) && decide (opStart op ≤ opEnd op) && chrono (opEnd op) rest

/-- Run a sequence of operations from a state. -/
def run (s : CacheState Key Value) (ops : List (Op Key Value)) : CacheState Key Value :=
  ops.foldl applyOp s

theorem getLast?_append_singleton (l : List (Nat × Item Key Value))
    (q : Nat × Item Key Value) : (l ++ [q]).getLast? = some q := by
  induction l with
  | nil => rfl
  | cons p rest ih =>
    rw [List.cons_append, List.getLast?_cons, ih]
    simp

theorem run_sorted_aux (ops : List (Op Key Value)) (s : CacheState Key Value) (t0 : Int)
    (hc : Consistent s) (hi : SortInv s t0)
    (h1 : ops.all isWriteOp = true) (h2 : chrono t0 ops = true) :
    SortedByExp (run s ops).order := by
  induction ops generalizing s t0 with
  | nil => exact hi.1
  | cons op rest ih =>
    rw [List.all_cons, Bool.and_eq_true] at h1
    cases op with
    | opSet k v t =>
      simp only [chrono, opStart, opEnd, Bool.and_eq_true, decide_eq_true_eq] at h2
      show SortedByExp (run (set s k v t) rest).order
      exact ih (set s k v t) t (set_consistent s k v t hc)
        (set_sortinv s k v t hc (sortinv_mono s t0 t h2.1.1 hi)) h1.2 h2.2
    | opGoR k rf t1 t2 =>
      simp only [chrono, opStart, opEnd, Bool.and_eq_true, decide_eq_true_eq] at h2
      show SortedByExp (run (getOrRefresh s k rf t1 t2).state rest).order
      exact ih (getOrRefresh s k rf t1 t2).state t2
        (getOrRefresh_consistent s k rf t1 t2 hc)
        (gor_sortinv s k rf t1 t2 h2.1.2 hc (sortinv_mono s t0 t1 h2.1.1 hi))
        h1.2 h2.2
    | opGet k t => simp [isWriteOp] at h1
    | opDel k t => simp [isWriteOp] at h1
    | opPurge t => simp [isWriteOp] at h1

/-- Claim C7: after any chronologically ordered sequence of Set and
GetOrRefresh operations starting from a fresh cache, the ordering list is
non-decreasing in expiry from head to tail; moreover every Set and every
successful refresh leaves its node at the tail with expiry = now + ttl. -/
theorem writes_keep_sorted (ttl t0 : Int) (ops : List (Op Key Value))
    (h1 : ops.all isWriteOp = true) (h2 : chrono t0 ops = true) :
    SortedByExp (run (empty ttl : CacheState Key Value) ops).order ∧
    (∀ (s : CacheState Key Value) (k : Key) (v : Value) (t : Int), Consistent s →
      ∃ id it, ((set s k v t).order.getLast? = some (id, it) ∧
        it.key = k ∧ it.exp = t + s.ttl)) ∧
    (∀ (s : CacheState Key Value) (k : Key) (z : Value) (t1 t2 : Int), Consistent s →
      (getOrRefresh s k (z, none) t1 t2).called = true →
      ∃ id it, ((getOrRefresh s k (z, none) t1 t2).state.order.getLast? = some (id, it) ∧
        it.key = k ∧ it.exp = t2 + s.ttl)) := by
  refine ⟨?_, ?_, ?_⟩
  · refine run_sorted_aux ops (empty ttl) t0 (consistent_empty ttl) ⟨?_, ?_⟩ h1 h2
    · exact List.Pairwise.nil
    · intro p hp
      cases hp
  · intro s k v t hc
    unfold set
    cases hm : mapGet s.index k with
    | none =>
      refine ⟨s.nextId, ⟨k, v, t + s.ttl, true, false⟩, ?_, rfl, rfl⟩
      exact getLast?_append_singleton s.order _
    | some id =>
      obtain ⟨itk, hmemk, hkeyk⟩ := hc.2.2.1 k id hm
      have hfk : findItem s.order id = some itk :=
        findItem_of_mem_nodup s.order hc.2.1 id itk hmemk
      have hfu := findItem_updateItem s.order id
        (fun it => ⟨it.key, v, t + s.ttl, true, it.locked⟩) itk hfk
      have hmtb : moveToBack (updateItem s.order id
            fun it => ⟨it.key, v, t + s.ttl, true, it.locked⟩) id =
          removeId s.order id ++ [(id, ⟨itk.key, v, t + s.ttl, true, itk.locked⟩)] := by
        unfold moveToBack
        rw [hfu, removeId_updateItem]
      refine ⟨id, ⟨itk.key, v, t + s.ttl, true, itk.locked⟩, ?_, hkeyk, rfl⟩
      show (moveToBack (updateItem s.order id
        fun it => ⟨it.key, v, t + s.ttl, true, it.locked⟩) id).getLast? = _
      rw [hmtb]
      exact getLast?_append_singleton _ _
  · intro s k z t1 t2 hc hcall
    have hc1 : Consistent (getOrCreateElement s k t1).1 := getOrCreateElement_consistent s k t1 hc
    have hm1 := getOrCreateElement_mapGet s k t1
    have httl := getOrCreateElement_ttl s k t1
    obtain ⟨itk, hmemk, hkeyk⟩ := hc1.2.2.1 k (getOrCreateElement s k t1).2 hm1
    have hfk : findItem (getOrCreateElement s k t1).1.order (getOrCreateElement s k t1).2 =
        some itk := findItem_of_mem_nodup _ hc1.2.1 _ itk hmemk
    simp only [getOrRefresh] at hcall ⊢
    simp only [hfk] at hcall ⊢
    by_cases hv : itk.isValid t1 = true
    · rw [if_pos hv] at hcall
      cases hcall
    · rw [if_neg hv] at hcall ⊢
      simp only at hcall ⊢
      have hfu := findItem_updateItem (getOrCreateElement s k t1).1.order
        (getOrCreateElement s k t1).2
        (fun j => ⟨j.key, z, t2 + (getOrCreateElement s k t1).1.ttl, true, j.locked⟩) itk hfk
      have hmtb : moveToBack (updateItem (getOrCreateElement s k t1).1.order
            (getOrCreateElement s k t1).2
            fun j => ⟨j.key, z, t2 + (getOrCreateElement s k t1).1.ttl, true, j.locked⟩)
          (getOrCreateElement s k t1).2 =
          removeId (getOrCreateElement s k t1).1.order (getOrCreateElement s k t1).2 ++
            [((getOrCreateElement s k t1).2,
              ⟨itk.key, z, t2 + (getOrCreateElement s k t1).1.ttl, true, itk.locked⟩)] := by
        unfold moveToBack
        rw [hfu, removeId_updateItem]
      refine ⟨(getOrCreateElement s k t1).2,
        ⟨itk.key, z, t2 + (getOrCreateElement s k t1).1.ttl, true, itk.locked⟩, ?_, hkeyk, ?_⟩
      · show (moveToBack (updateItem (getOrCreateElement s k t1).1.order
          (getOrCreateElement s k t1).2
          fun j => ⟨j.key, z, t2 + (getOrCreateElement s k t1).1.ttl, true, j.locked⟩)
          (getOrCreateElement s k t1).2).getLast? = _
        rw [hmtb]
        exact getLast?_append_singleton _ _
      · show t2 + (getOrCreateElement s k t1).1.ttl = t2 + s.ttl
        rw [httl]

/-- Witness for C7 at a concrete input. -/
theorem writes_keep_sorted_witness :
    SortedByExp (run (empty 10 : CacheState Nat Nat)
      [Op.opSet 1 5 0, Op.opGoR 2 (7, none) 1 3]).order ∧
    (∀ (s : CacheState Nat Nat) (k : Nat) (v : Nat) (t : Int), Consistent s →
      ∃ id it, ((set s k v t).order.getLast? = some (id, it) ∧
        it.key = k ∧ it.exp = t + s.ttl)) ∧
    (∀ (s : CacheState Nat Nat) (k : Nat) (z : Nat) (t1 t2 : Int), Consistent s →
      (getOrRefresh s k (z, none) t1 t2).called = true →
      ∃ id it, ((getOrRefresh s k (z, none) t1 t2).state.order.getLast? = some (id, it) ∧
        it.key = k ∧ it.exp = t2 + s.ttl)) :=
  writes_keep_sorted 10 0 [Op.opSet 1 5 0, Op.opGoR 2 (7, none) 1 3] (by decide) (by decide)

/-!
Concurrent model of the singleflight protocol of GetOrRefresh for one key.

N threads concurrently execute `GetOrRefresh(k, refresh)` on the same key and
nothing else runs (no Set/Del/Purge on that key). The shared state is the
projection of the cache onto that key: its entry (or none), the entry mutex
holder, and an instrumentation counter of completed refresh invocations. Each
thread is a program counter walking the source line by line:

  start       before calling getOrCreateElement
  waitLock    element obtained, blocked on item.mtx.Lock()
  locked      holding the entry lock, about to check IsValid
  refreshing  executing the caller-supplied refresh function
  writing v   refresh returned (v, nil); about to store val/set/exp
  moving v    entry written and unlocked; about to MoveToBack
  doneOk v    returned (v, nil)
  doneErr     returned the wrapped refresh error

`rf n` is the outcome of the n-th refresh invocation (none = error). The wall
clock is held at `t0` for the duration of the race (the race is assumed to
finish within one TTL window, as the claim presumes: no entry expires while
the callers run). -/

/-- The per-key entry as the singleflight protocol sees it. -/
structure SfItem (Value : Type) where
  set : Bool
  val : Value
  exp : Int
deriving DecidableEq

/-- Item.IsValid on the optional entry at the frozen race time. -/
def entryValidB (e : Option (SfItem Value)) (t0 : Int) : Bool :=
  match e with
  | none => false
  | some it => it.set && !(decide (it.exp < t0))

/-- Program counter of one GetOrRefresh thread. -/
inductive SfPc (Value : Type) where
  | start
  | waitLock
  | locked
  | refreshing
  | writing (v : Value)
  | moving (v : Value)
  | doneOk (v : Value)
  | doneErr
deriving DecidableEq

/-- Shared configuration of the race: the entry for the key, the holder of
the entry mutex, the number of completed refresh invocations, and every
thread's program counter. -/
structure SfConfig (Value : Type) where
  entry : Option (SfItem Value)
  lock : Option Nat
  count : Nat
  pcs : List (SfPc Value)
deriving DecidableEq

/-- Thread i's program counter. -/
def pcGet : List (SfPc Value) → Nat → Option (SfPc Value)
  | [], _ => none
  | p :: _, 0 => some p
  | _ :: rest, Nat.succ i => pcGet rest i

/-- Update thread i's program counter. -/
def pcSet : List (SfPc Value) → Nat → SfPc Value → List (SfPc Value)
  | [], _, _ => []
  | _ :: rest, 0, pc => pc :: rest
  | p :: rest, Nat.succ i, pc => p :: pcSet rest i pc

theorem pcGet_pcSet_ne (l : List (SfPc Value)) (i j : Nat) (pc : SfPc Value)
    (h : j ≠ i) : pcGet (pcSet l i pc) j = pcGet l j := by
  induction l generalizing i j with
  | nil => rfl
  | cons p rest ih =>
    cases i with
    | zero =>
      cases j with
      | zero => exact absurd rfl h
      | succ j0 => rfl
    | succ i0 =>
      cases j with
      | zero => rfl
      | succ j0 =>
        show pcGet (pcSet rest i0 pc) j0 = pcGet rest j0
        exact ih i0 j0 fun he => h (by rw [he])

theorem pcGet_pcSet_self (l : List (SfPc Value)) (i : Nat) (pc pc0 : SfPc Value)
    (h : pcGet l i = some pc0) : pcGet (pcSet l i pc) i = some pc := by
  induction l generalizing i with
  | nil => cases h
  | cons p rest ih =>
    cases i with
    | zero => rfl
    | succ i0 => exact ih i0 h

theorem pcSet_length (l : List (SfPc Value)) (i : Nat) (pc : SfPc Value) :
    (pcSet l i pc).length = l.length := by
  induction l generalizing i with
  | nil => rfl
  | cons p rest ih =>
    cases i with
    | zero => rfl
    | succ i0 =>
      show (pcSet rest i0 pc).length + 1 = rest.length + 1
      rw [ih i0]

theorem pcGet_isSome_of_lt (l : List (SfPc Value)) (i : Nat) (h : i < l.length) :
    ∃ pc, pcGet l i = some pc := by
  induction l generalizing i with
  | nil => cases h
  | cons p rest ih =>
    cases i with
    | zero => exact ⟨p, rfl⟩
    | succ i0 => exact ih i0 (Nat.lt_of_succ_lt_succ h)

/-- One interleaving step of the race: some thread advances by one atomic
action of the GetOrRefresh source. -/
inductive SfStep (rf : Nat → Option Value) (t0 ttl : Int) [Inhabited Value] :
    SfConfig Value → SfConfig Value → Prop where
  | create (c : SfConfig Value) (i : Nat)
      (hpc : pcGet c.pcs i = some .start) (he : c.entry = none) :
      SfStep rf t0 ttl c
        ⟨some ⟨false, default, t0 + ttl⟩, c.lock, c.count, pcSet c.pcs i .waitLock⟩
  | reuse (c : SfConfig Value) (i : Nat) (it : SfItem Value)
      (hpc : pcGet c.pcs i = some .start) (he : c.entry = some it) :
      SfStep rf t0 ttl c ⟨c.entry, c.lock, c.count, pcSet c.pcs i .waitLock⟩
  | acquire (c : SfConfig Value) (i : Nat)
      (hpc : pcGet c.pcs i = some .waitLock) (hl : c.lock = none) :
      SfStep rf t0 ttl c ⟨c.entry, some i, c.count, pcSet c.pcs i .locked⟩
  | hitValid (c : SfConfig Value) (i : Nat) (it : SfItem Value)
      (hpc : pcGet c.pcs i = some .locked) (he : c.entry = some it)
      (hs : it.set = true) (hx : ¬ it.exp < t0) :
      SfStep rf t0 ttl c ⟨c.entry, none, c.count, pcSet c.pcs i (.doneOk it.val)⟩
  | missInvalid (c : SfConfig Value) (i : Nat)
      (hpc : pcGet c.pcs i = some .locked) (hv : entryValidB c.entry t0 = false) :
      SfStep rf t0 ttl c ⟨c.entry, c.lock, c.count, pcSet c.pcs i .refreshing⟩
  | refreshOk (c : SfConfig Value) (i : Nat) (w : Value)
      (hpc : pcGet c.pcs i = some .refreshing) (hr : rf c.count = some w) :
      SfStep rf t0 ttl c ⟨c.entry, c.lock, c.count + 1, pcSet c.pcs i (.writing w)⟩
  | refreshErr (c : SfConfig Value) (i : Nat)
      (hpc : pcGet c.pcs i = some .refreshing) (hr : rf c.count = none) :
      SfStep rf t0 ttl c ⟨c.entry, none, c.count + 1, pcSet c.pcs i .doneErr⟩
  | write (c : SfConfig Value) (i : Nat) (w : Value)
      (hpc : pcGet c.pcs i = some (.writing w)) :
      SfStep rf t0 ttl c ⟨some ⟨true, w, t0 + ttl⟩, none, c.count, pcSet c.pcs i (.moving w)⟩
  | move (c : SfConfig Value) (i : Nat) (w : Value)
      (hpc : pcGet c.pcs i = some (.moving w)) :
      SfStep rf t0 ttl c ⟨c.entry, c.lock, c.count, pcSet c.pcs i (.doneOk w)⟩

/-- Reflexive-transitive closure of the interleaving step. -/
inductive SfReach (rf : Nat → Option Value) (t0 ttl : Int) [Inhabited Value] :
    SfConfig Value → SfConfig Value → Prop where
  | refl (c : SfConfig Value) : SfReach rf t0 ttl c c
  | tail (a b c : SfConfig Value) (hab : SfReach rf t0 ttl a b)
      (hbc : SfStep rf t0 ttl b c) : SfReach rf t0 ttl a c

/-- The initial configuration: n threads at start, lock free, no refresh run
yet, and whatever entry the key had before the race. -/
def sfInit (n : Nat) (e0 : Option (SfItem Value)) : SfConfig Value :=
  ⟨e0, none, 0, List.replicate n .start⟩

/-- Program counters at which the thread holds the entry mutex. -/
def inLockRegion : SfPc Value → Bool
  | .locked => true
  | .refreshing => true
  | .writing _ => true
  | _ => false

/-- The lock discipline: any thread whose program counter lies in the lock
region is the registered holder of the entry mutex. -/
def ExclInv (c : SfConfig Value) : Prop :=
  ∀ i pc, pcGet c.pcs i = some pc → inLockRegion pc = true → c.lock = some i

theorem pcGet_replicate (n i : Nat) (x pc : SfPc Value)
    (h : pcGet (List.replicate n x) i = some pc) : pc = x := by
  induction n generalizing i with
  | zero => cases h
  | succ n0 ih =>
    rw [List.replicate_succ] at h
    cases i with
    | zero => exact ((Option.some.injEq _ _).mp h).symm
    | succ i0 => exact ih i0 h

theorem excl_init (n : Nat) (e0 : Option (SfItem Value)) : ExclInv (sfInit n e0) := by
  intro i pc hpc hr
  have hx := pcGet_replicate n i SfPc.start pc hpc
  rw [hx] at hr
  cases hr

theorem excl_step (rf : Nat → Option Value) (t0 ttl : Int) (c c' : SfConfig Value)
    (hinv : ExclInv c) (hstep : SfStep rf t0 ttl c c') : ExclInv c' := by
  cases hstep with
  | create i hpc he =>
    intro j pc' hj hr
    by_cases hji : j = i
    · rw [hji] at hj
      rw [pcGet_pcSet_self c.pcs i SfPc.waitLock SfPc.start hpc] at hj
      rw [← (Option.some.injEq _ _).mp hj] at hr
      cases hr
    · rw [pcGet_pcSet_ne c.pcs i j SfPc.waitLock hji] at hj
      exact hinv j pc' hj hr
  | reuse i it hpc he =>
    intro j pc' hj hr
    by_cases hji : j = i
    · rw [hji] at hj
      rw [pcGet_pcSet_self c.pcs i SfPc.waitLock SfPc.start hpc] at hj
      rw [← (Option.some.injEq _ _).mp hj] at hr
      cases hr
    · rw [pcGet_pcSet_ne c.pcs i j SfPc.waitLock hji] at hj
      exact hinv j pc' hj hr
  | acquire i hpc hl =>
    intro j pc' hj hr
    by_cases hji : j = i
    · rw [hji]
    · rw [pcGet_pcSet_ne c.pcs i j SfPc.locked hji] at hj
      have := hinv j pc' hj hr
      rw [hl] at this
      cases this
  | hitValid i it hpc he hs hx =>
    intro j pc' hj hr
    by_cases hji : j = i
    · rw [hji] at hj
      rw [pcGet_pcSet_self c.pcs i _ SfPc.locked hpc] at hj
      rw [← (Option.some.injEq _ _).mp hj] at hr
      cases hr
    · rw [pcGet_pcSet_ne c.pcs i j _ hji] at hj
      have h1 := hinv j pc' hj hr
      have h2 := hinv i SfPc.locked hpc rfl
      rw [h1] at h2
      exact absurd ((Option.some.injEq _ _).mp h2) hji
  | missInvalid i hpc hv =>
    intro j pc' hj hr
    by_cases hji : j = i
    · rw [hji]
      exact hinv i SfPc.locked hpc rfl
    · rw [pcGet_pcSet_ne c.pcs i j SfPc.refreshing hji] at hj
      exact hinv j pc' hj hr
  | refreshOk i w hpc hr2 =>
    intro j pc' hj hr
    by_cases hji : j = i
    · rw [hji]
      exact hinv i SfPc.refreshing hpc rfl
    · rw [pcGet_pcSet_ne c.pcs i j (SfPc.writing w) hji] at hj
      exact hinv j pc' hj hr
  | refreshErr i hpc hr2 =>
    intro j pc' hj hr
    by_cases hji : j = i
    · rw [hji] at hj
      rw [pcGet_pcSet_self c.pcs i SfPc.doneErr SfPc.refreshing hpc] at hj
      rw [← (Option.some.injEq _ _).mp hj] at hr
      cases hr
    · rw [pcGet_pcSet_ne c.pcs i j SfPc.doneErr hji] at hj
      have h1 := hinv j pc' hj hr
      have h2 := hinv i SfPc.refreshing hpc rfl
      rw [h1] at h2
      exact absurd ((Option.some.injEq _ _).mp h2) hji
  | write i w hpc =>
    intro j pc' hj hr
    by_cases hji : j = i
    · rw [hji] at hj
      rw [pcGet_pcSet_self c.pcs i (SfPc.moving w) (SfPc.writing w) hpc] at hj
      rw [← (Option.some.injEq _ _).mp hj] at hr
      cases hr
    · rw [pcGet_pcSet_ne c.pcs i j (SfPc.moving w) hji] at hj
      have h1 := hinv j pc' hj hr
      have h2 := hinv i (SfPc.writing w) hpc rfl
      rw [h1] at h2
      exact absurd ((Option.some.injEq _ _).mp h2) hji
  | move i w hpc =>
    intro j pc' hj hr
    by_cases hji : j = i
    · rw [hji] at hj
      rw [pcGet_pcSet_self c.pcs i (SfPc.doneOk w) (SfPc.moving w) hpc] at hj
      rw [← (Option.some.injEq _ _).mp hj] at hr
      cases hr
    · rw [pcGet_pcSet_ne c.pcs i j (SfPc.doneOk w) hji] at hj
      exact hinv j pc' hj hr

theorem excl_reach (rf : Nat → Option Value) (t0 ttl : Int) (c0 c : SfConfig Value)
    (h0 : ExclInv c0) (hr : SfReach rf t0 ttl c0 c) : ExclInv c := by
  induction hr with
  | refl => exact h0
  | tail b c hab hbc ih => exact excl_step rf t0 ttl b c ih hbc

/-- Exactly-once invariant for a race whose refresh always succeeds with the
fixed value `v`: refresh runs before any valid entry exists and exactly once,
the entry becomes (and stays) the one written by the unique refresher, and
every finished thread saw that value. -/
structure OnceInv (v : Value) (t0 ttl : Int) (c : SfConfig Value) : Prop where
  refr : ∀ i, pcGet c.pcs i = some .refreshing →
    c.count = 0 ∧ entryValidB c.entry t0 = false
  writ : ∀ i w, pcGet c.pcs i = some (.writing w) →
    w = v ∧ c.count = 1 ∧ entryValidB c.entry t0 = false
  valid : entryValidB c.entry t0 = true →
    c.count = 1 ∧ c.entry = some ⟨true, v, t0 + ttl⟩
  done : ∀ i w, pcGet c.pcs i = some (.doneOk w) →
    w = v ∧ entryValidB c.entry t0 = true
  mov : ∀ i w, pcGet c.pcs i = some (.moving w) →
    w = v ∧ entryValidB c.entry t0 = true
  cle : c.count ≤ 1
  cone : c.count = 1 →
    entryValidB c.entry t0 = true ∨ ∃ i w, pcGet c.pcs i = some (.writing w)
  nerr : ∀ i, pcGet c.pcs i ≠ some .doneErr

theorem once_init (v : Value) (t0 ttl : Int) (n : Nat) (e0 : Option (SfItem Value))
    (h0 : entryValidB e0 t0 = false) : OnceInv v t0 ttl (sfInit n e0) := by
  refine ⟨?_, ?_, ?_, ?_, ?_, ?_, ?_, ?_⟩
  · intro i hi
    cases pcGet_replicate n i SfPc.start _ hi
  · intro i w hi
    cases pcGet_replicate n i SfPc.start _ hi
  · intro h
    have h2 : entryValidB e0 t0 = true := h
    rw [h0] at h2
    cases h2
  · intro i w hi
    cases pcGet_replicate n i SfPc.start _ hi
  · intro i w hi
    cases pcGet_replicate n i SfPc.start _ hi
  · show 0 ≤ 1
    omega
  · intro h
    cases h
  · intro i hi
    cases pcGet_replicate n i SfPc.start _ hi

theorem once_step (v : Value) (t0 ttl : Int) (httl : 0 ≤ ttl) (c c' : SfConfig Value)
    (hexcl : ExclInv c) (hinv : OnceInv v t0 ttl c)
    (hstep : SfStep (fun _ => some v) t0 ttl c c') : OnceInv v t0 ttl c' := by
  have hvalid_placeholder : ∀ x : Value,
      entryValidB (some (⟨false, x, t0 + ttl⟩ : SfItem Value)) t0 = false := by
    intro x
    simp [entryValidB]
  have hvalid_written : ∀ w : Value,
      entryValidB (some (⟨true, w, t0 + ttl⟩ : SfItem Value)) t0 = true := by
    intro w
    simp [entryValidB]
    omega
  cases hstep with
  | create i hpc he =>
    have hvnone : entryValidB c.entry t0 = false := by rw [he]; rfl
    refine ⟨?_, ?_, ?_, ?_, ?_, hinv.cle, ?_, ?_⟩
    · intro j hj
      by_cases hji : j = i
      · rw [hji, pcGet_pcSet_self c.pcs i _ _ hpc] at hj
        cases hj
      · rw [pcGet_pcSet_ne c.pcs i j _ hji] at hj
        exact ⟨(hinv.refr j hj).1, hvalid_placeholder default⟩
    · intro j w hj
      by_cases hji : j = i
      · rw [hji, pcGet_pcSet_self c.pcs i _ _ hpc] at hj
        cases hj
      · rw [pcGet_pcSet_ne c.pcs i j _ hji] at hj
        exact ⟨(hinv.writ j w hj).1, (hinv.writ j w hj).2.1, hvalid_placeholder default⟩
    · intro h
      rw [hvalid_placeholder default] at h
      cases h
    · intro j w hj
      by_cases hji : j = i
      · rw [hji, pcGet_pcSet_self c.pcs i _ _ hpc] at hj
        cases hj
      · rw [pcGet_pcSet_ne c.pcs i j _ hji] at hj
        have hd := (hinv.done j w hj).2
        rw [hvnone] at hd
        cases hd
    · intro j w hj
      by_cases hji : j = i
      · rw [hji, pcGet_pcSet_self c.pcs i _ _ hpc] at hj
        cases hj
      · rw [pcGet_pcSet_ne c.pcs i j _ hji] at hj
        have hd := (hinv.mov j w hj).2
        rw [hvnone] at hd
        cases hd
    · intro h
      rcases hinv.cone h with hv1 | ⟨j, w, hj⟩
      · rw [hvnone] at hv1
        cases hv1
      · right
        refine ⟨j, w, ?_⟩
        have hji : j ≠ i := by
          intro hx
          rw [hx, hpc] at hj
          cases hj
        rw [pcGet_pcSet_ne c.pcs i j _ hji]
        exact hj
    · intro j hj
      by_cases hji : j = i
      · rw [hji, pcGet_pcSet_self c.pcs i _ _ hpc] at hj
        cases hj
      · rw [pcGet_pcSet_ne c.pcs i j _ hji] at hj
        exact hinv.nerr j hj
  | reuse i it hpc he =>
    refine ⟨?_, ?_, hinv.valid, ?_, ?_, hinv.cle, ?_, ?_⟩
    · intro j hj
      by_cases hji : j = i
      · rw [hji, pcGet_pcSet_self c.pcs i _ _ hpc] at hj
        cases hj
      · rw [pcGet_pcSet_ne c.pcs i j _ hji] at hj
        exact hinv.refr j hj
    · intro j w hj
      by_cases hji : j = i
      · rw [hji, pcGet_pcSet_self c.pcs i _ _ hpc] at hj
        cases hj
      · rw [pcGet_pcSet_ne c.pcs i j _ hji] at hj
        exact hinv.writ j w hj
    · intro j w hj
      by_cases hji : j = i
      · rw [hji, pcGet_pcSet_self c.pcs i _ _ hpc] at hj
        cases hj
      · rw [pcGet_pcSet_ne c.pcs i j _ hji] at hj
        exact hinv.done j w hj
    · intro j w hj
      by_cases hji : j = i
      · rw [hji, pcGet_pcSet_self c.pcs i _ _ hpc] at hj
        cases hj
      · rw [pcGet_pcSet_ne c.pcs i j _ hji] at hj
        exact hinv.mov j w hj
    · intro h
      rcases hinv.cone h with hv1 | ⟨j, w, hj⟩
      · exact Or.inl hv1
      · right
        refine ⟨j, w, ?_⟩
        have hji : j ≠ i := by
          intro hx
          rw [hx, hpc] at hj
          cases hj
        rw [pcGet_pcSet_ne c.pcs i j _ hji]
        exact hj
    · intro j hj
      by_cases hji : j = i
      · rw [hji, pcGet_pcSet_self c.pcs i _ _ hpc] at hj
        cases hj
      · rw [pcGet_pcSet_ne c.pcs i j _ hji] at hj
        exact hinv.nerr j hj
  | acquire i hpc hl =>
    refine ⟨?_, ?_, hinv.valid, ?_, ?_, hinv.cle, ?_, ?_⟩
    · intro j hj
      by_cases hji : j = i
      · rw [hji, pcGet_pcSet_self c.pcs i _ _ hpc] at hj
        cases hj
      · rw [pcGet_pcSet_ne c.pcs i j _ hji] at hj
        exact hinv.refr j hj
    · intro j w hj
      by_cases hji : j = i
      · rw [hji, pcGet_pcSet_self c.pcs i _ _ hpc] at hj
        cases hj
      · rw [pcGet_pcSet_ne c.pcs i j _ hji] at hj
        exact hinv.writ j w hj
    · intro j w hj
      by_cases hji : j = i
      · rw [hji, pcGet_pcSet_self c.pcs i _ _ hpc] at hj
        cases hj
      · rw [pcGet_pcSet_ne c.pcs i j _ hji] at hj
        exact hinv.done j w hj
    · intro j w hj
      by_cases hji : j = i
      · rw [hji, pcGet_pcSet_self c.pcs i _ _ hpc] at hj
        cases hj
      · rw [pcGet_pcSet_ne c.pcs i j _ hji] at hj
        exact hinv.mov j w hj
    · intro h
      rcases hinv.cone h with hv1 | ⟨j, w, hj⟩
      · exact Or.inl hv1
      · right
        refine ⟨j, w, ?_⟩
        have hji : j ≠ i := by
          intro hx
          rw [hx, hpc] at hj
          cases hj
        rw [pcGet_pcSet_ne c.pcs i j _ hji]
        exact hj
    · intro j hj
      by_cases hji : j = i
      · rw [hji, pcGet_pcSet_self c.pcs i _ _ hpc] at hj
        cases hj
      · rw [pcGet_pcSet_ne c.pcs i j _ hji] at hj
        exact hinv.nerr j hj
  | hitValid i it hpc he hs hx =>
    have hvtrue : entryValidB c.entry t0 = true := by
      rw [he]
      simp [entryValidB, hs]
      omega
    have hval := hinv.valid hvtrue
    have hitv : it = ⟨true, v, t0 + ttl⟩ := by
      rw [he] at hval
      exact (Option.some.injEq _ _).mp hval.2
    refine ⟨?_, ?_, hinv.valid, ?_, ?_, hinv.cle, ?_, ?_⟩
    · intro j hj
      by_cases hji : j = i
      · rw [hji, pcGet_pcSet_self c.pcs i _ _ hpc] at hj
        cases hj
      · rw [pcGet_pcSet_ne c.pcs i j _ hji] at hj
        have hd := (hinv.refr j hj).2
        rw [hvtrue] at hd
        cases hd
    · intro j w hj
      by_cases hji : j = i
      · rw [hji, pcGet_pcSet_self c.pcs i _ _ hpc] at hj
        cases hj
      · rw [pcGet_pcSet_ne c.pcs i j _ hji] at hj
        have hd := (hinv.writ j w hj).2.2
        rw [hvtrue] at hd
        cases hd
    · intro j w hj
      by_cases hji : j = i
      · rw [hji, pcGet_pcSet_self c.pcs i _ _ hpc] at hj
        have hw : SfPc.doneOk it.val = SfPc.doneOk w := (Option.some.injEq _ _).mp hj
        have hwv : w = it.val := (SfPc.doneOk.injEq _ _).mp hw |>.symm
        rw [hwv, hitv]
        exact ⟨rfl, hvtrue⟩
      · rw [pcGet_pcSet_ne c.pcs i j _ hji] at hj
        exact hinv.done j w hj
    · intro j w hj
      by_cases hji : j = i
      · rw [hji, pcGet_pcSet_self c.pcs i _ _ hpc] at hj
        cases hj
      · rw [pcGet_pcSet_ne c.pcs i j _ hji] at hj
        exact hinv.mov j w hj
    · intro h
      exact Or.inl hvtrue
    · intro j hj
      by_cases hji : j = i
      · rw [hji, pcGet_pcSet_self c.pcs i _ _ hpc] at hj
        cases hj
      · rw [pcGet_pcSet_ne c.pcs i j _ hji] at hj
        exact hinv.nerr j hj
  | missInvalid i hpc hv =>
    have hcount : c.count = 0 := by
      have hle := hinv.cle
      by_cases h1 : c.count = 1
      · exfalso
        rcases hinv.cone h1 with hv1 | ⟨j, w, hj⟩
        · rw [hv] at hv1
          cases hv1
        · have hlj := hexcl j (SfPc.writing w) hj rfl
          have hli := hexcl i SfPc.locked hpc rfl
          rw [hli] at hlj
          have hij : i = j := (Option.some.injEq _ _).mp hlj
          rw [← hij, hpc] at hj
          cases hj
      · omega
    refine ⟨?_, ?_, ?_, ?_, ?_, hinv.cle, ?_, ?_⟩
    · intro j hj
      exact ⟨hcount, hv⟩
    · intro j w hj
      by_cases hji : j = i
      · rw [hji, pcGet_pcSet_self c.pcs i _ _ hpc] at hj
        cases hj
      · rw [pcGet_pcSet_ne c.pcs i j _ hji] at hj
        have hd := (hinv.writ j w hj).2.1
        rw [hcount] at hd
        cases hd
    · intro h
      rw [hv] at h
      cases h
    · intro j w hj
      by_cases hji : j = i
      · rw [hji, pcGet_pcSet_self c.pcs i _ _ hpc] at hj
        cases hj
      · rw [pcGet_pcSet_ne c.pcs i j _ hji] at hj
        have hd := (hinv.done j w hj).2
        rw [hv] at hd
        cases hd
    · intro j w hj
      by_cases hji : j = i
      · rw [hji, pcGet_pcSet_self c.pcs i _ _ hpc] at hj
        cases hj
      · rw [pcGet_pcSet_ne c.pcs i j _ hji] at hj
        have hd := (hinv.mov j w hj).2
        rw [hv] at hd
        cases hd
    · intro h
      rw [hcount] at h
      cases h
    · intro j hj
      by_cases hji : j = i
      · rw [hji, pcGet_pcSet_self c.pcs i _ _ hpc] at hj
        cases hj
      · rw [pcGet_pcSet_ne c.pcs i j _ hji] at hj
        exact hinv.nerr j hj
  | refreshOk i w hpc hr =>
    have hwv : w = v := by
      have hx : some v = some w := hr
      exact ((Option.some.injEq _ _).mp hx).symm
    have hri := hinv.refr i hpc
    refine ⟨?_, ?_, ?_, ?_, ?_, ?_, ?_, ?_⟩
    · intro j hj
      by_cases hji : j = i
      · rw [hji, pcGet_pcSet_self c.pcs i _ _ hpc] at hj
        cases hj
      · rw [pcGet_pcSet_ne c.pcs i j _ hji] at hj
        exfalso
        have hlj := hexcl j SfPc.refreshing hj rfl
        have hli := hexcl i SfPc.refreshing hpc rfl
        rw [hli] at hlj
        exact hji ((Option.some.injEq _ _).mp hlj).symm
    · intro j w2 hj
      by_cases hji : j = i
      · rw [hji, pcGet_pcSet_self c.pcs i _ _ hpc] at hj
        have hw2 : w2 = w := ((SfPc.writing.injEq _ _).mp ((Option.some.injEq _ _).mp hj)).symm
        refine ⟨by rw [hw2, hwv], ?_, hri.2⟩
        show c.count + 1 = 1
        rw [hri.1]
      · rw [pcGet_pcSet_ne c.pcs i j _ hji] at hj
        exfalso
        have hlj := hexcl j (SfPc.writing w2) hj rfl
        have hli := hexcl i SfPc.refreshing hpc rfl
        rw [hli] at hlj
        have hij : i = j := (Option.some.injEq _ _).mp hlj
        rw [← hij, hpc] at hj
        cases hj
    · intro h
      rw [hri.2] at h
      cases h
    · intro j w2 hj
      by_cases hji : j = i
      · rw [hji, pcGet_pcSet_self c.pcs i _ _ hpc] at hj
        cases hj
      · rw [pcGet_pcSet_ne c.pcs i j _ hji] at hj
        have hd := (hinv.done j w2 hj).2
        rw [hri.2] at hd
        cases hd
    · intro j w2 hj
      by_cases hji : j = i
      · rw [hji, pcGet_pcSet_self c.pcs i _ _ hpc] at hj
        cases hj
      · rw [pcGet_pcSet_ne c.pcs i j _ hji] at hj
        have hd := (hinv.mov j w2 hj).2
        rw [hri.2] at hd
        cases hd
    · show c.count + 1 ≤ 1
      rw [hri.1]
    · intro h
      right
      refine ⟨i, w, ?_⟩
      exact pcGet_pcSet_self c.pcs i _ _ hpc
    · intro j hj
      by_cases hji : j = i
      · rw [hji, pcGet_pcSet_self c.pcs i _ _ hpc] at hj
        cases hj
      · rw [pcGet_pcSet_ne c.pcs i j _ hji] at hj
        exact hinv.nerr j hj
  | refreshErr i hpc hr =>
    exact absurd hr (by simp)
  | write i w hpc =>
    have hwi := hinv.writ i w hpc
    have hvnew : entryValidB (some (⟨true, w, t0 + ttl⟩ : SfItem Value)) t0 = true :=
      hvalid_written w
    refine ⟨?_, ?_, ?_, ?_, ?_, hinv.cle, ?_, ?_⟩
    · intro j hj
      by_cases hji : j = i
      · rw [hji, pcGet_pcSet_self c.pcs i _ _ hpc] at hj
        cases hj
      · rw [pcGet_pcSet_ne c.pcs i j _ hji] at hj
        exfalso
        have hlj := hexcl j SfPc.refreshing hj rfl
        have hli := hexcl i (SfPc.writing w) hpc rfl
        rw [hli] at hlj
        have hij : i = j := (Option.some.injEq _ _).mp hlj
        rw [← hij, hpc] at hj
        cases hj
    · intro j w2 hj
      by_cases hji : j = i
      · rw [hji, pcGet_pcSet_self c.pcs i _ _ hpc] at hj
        cases hj
      · rw [pcGet_pcSet_ne c.pcs i j _ hji] at hj
        exfalso
        have hlj := hexcl j (SfPc.writing w2) hj rfl
        have hli := hexcl i (SfPc.writing w) hpc rfl
        rw [hli] at hlj
        have hij : i = j := (Option.some.injEq _ _).mp hlj
        exact hji hij.symm
    · intro h
      refine ⟨hwi.2.1, ?_⟩
      show some (⟨true, w, t0 + ttl⟩ : SfItem Value) = some ⟨true, v, t0 + ttl⟩
      rw [hwi.1]
    · intro j w2 hj
      by_cases hji : j = i
      · rw [hji, pcGet_pcSet_self c.pcs i _ _ hpc] at hj
        cases hj
      · rw [pcGet_pcSet_ne c.pcs i j _ hji] at hj
        have hd := (hinv.done j w2 hj).2
        rw [hwi.2.2] at hd
        cases hd
    · intro j w2 hj
      by_cases hji : j = i
      · rw [hji, pcGet_pcSet_self c.pcs i _ _ hpc] at hj
        have hw2 : w2 = w :=
          ((SfPc.moving.injEq _ _).mp ((Option.some.injEq _ _).mp hj)).symm
        exact ⟨by rw [hw2, hwi.1], hvnew⟩
      · rw [pcGet_pcSet_ne c.pcs i j _ hji] at hj
        have hd := (hinv.mov j w2 hj).2
        rw [hwi.2.2] at hd
        cases hd
    · intro h
      exact Or.inl hvnew
    · intro j hj
      by_cases hji : j = i
      · rw [hji, pcGet_pcSet_self c.pcs i _ _ hpc] at hj
        cases hj
      · rw [pcGet_pcSet_ne c.pcs i j _ hji] at hj
        exact hinv.nerr j hj
  | move i w hpc =>
    have hmi := hinv.mov i w hpc
    refine ⟨?_, ?_, hinv.valid, ?_, ?_, hinv.cle, ?_, ?_⟩
    · intro j hj
      by_cases hji : j = i
      · rw [hji, pcGet_pcSet_self c.pcs i _ _ hpc] at hj
        cases hj
      · rw [pcGet_pcSet_ne c.pcs i j _ hji] at hj
        exact hinv.refr j hj
    · intro j w2 hj
      by_cases hji : j = i
      · rw [hji, pcGet_pcSet_self c.pcs i _ _ hpc] at hj
        cases hj
      · rw [pcGet_pcSet_ne c.pcs i j _ hji] at hj
        exact hinv.writ j w2 hj
    · intro j w2 hj
      by_cases hji : j = i
      · rw [hji, pcGet_pcSet_self c.pcs i _ _ hpc] at hj
        have hw2 : w2 = w :=
          ((SfPc.doneOk.injEq _ _).mp ((Option.some.injEq _ _).mp hj)).symm
        exact ⟨by rw [hw2, hmi.1], hmi.2⟩
      · rw [pcGet_pcSet_ne c.pcs i j _ hji] at hj
        exact hinv.done j w2 hj
    · intro j w2 hj
      by_cases hji : j = i
      · rw [hji, pcGet_pcSet_self c.pcs i _ _ hpc] at hj
        cases hj
      · rw [pcGet_pcSet_ne c.pcs i j _ hji] at hj
        exact hinv.mov j w2 hj
    · intro h
      rcases hinv.cone h with hv1 | ⟨j, w2, hj⟩
      · exact Or.inl hv1
      · right
        refine ⟨j, w2, ?_⟩
        have hji : j ≠ i := by
          intro hx
          rw [hx, hpc] at hj
          cases hj
        rw [pcGet_pcSet_ne c.pcs i j _ hji]
        exact hj
    · intro j hj
      by_cases hji : j = i
      · rw [hji, pcGet_pcSet_self c.pcs i _ _ hpc] at hj
        cases hj
      · rw [pcGet_pcSet_ne c.pcs i j _ hji] at hj
        exact hinv.nerr j hj

theorem once_reach (v : Value) (t0 ttl : Int) (httl : 0 ≤ ttl) (c0 c : SfConfig Value)
    (he : ExclInv c0) (h0 : OnceInv v t0 ttl c0)
    (hr : SfReach (fun _ => some v) t0 ttl c0 c) : OnceInv v t0 ttl c := by
  induction hr with
  | refl => exact h0
  | tail b c hab hbc ih =>
    exact once_step v t0 ttl httl b c
      (excl_reach (fun _ => some v) t0 ttl c0 b he hab) ih hbc

theorem step_pcs_length (rf : Nat → Option Value) (t0 ttl : Int) (c c' : SfConfig Value)
    (h : SfStep rf t0 ttl c c') : c'.pcs.length = c.pcs.length := by
  cases h with
  | create i hpc he => exact pcSet_length c.pcs i _
  | reuse i it hpc he => exact pcSet_length c.pcs i _
  | acquire i hpc hl => exact pcSet_length c.pcs i _
  | hitValid i it hpc he hs hx => exact pcSet_length c.pcs i _
  | missInvalid i hpc hv => exact pcSet_length c.pcs i _
  | refreshOk i w hpc hr => exact pcSet_length c.pcs i _
  | refreshErr i hpc hr => exact pcSet_length c.pcs i _
  | write i w hpc => exact pcSet_length c.pcs i _
  | move i w hpc => exact pcSet_length c.pcs i _

theorem reach_pcs_length (rf : Nat → Option Value) (t0 ttl : Int) (c0 c : SfConfig Value)
    (h : SfReach rf t0 ttl c0 c) : c.pcs.length = c0.pcs.length := by
  induction h with
  | refl => rfl
  | tail b c hab hbc ih => exact (step_pcs_length rf t0 ttl b c hbc).trans ih

/-- Claim C2: the singleflight guarantee of GetOrRefresh for one key, over
the interleaving semantics of N threads concurrently running the
GetOrRefresh source with no other operation on the key and no expiry during
the race. First conjunct (any refresh outcomes): at most one thread is ever
inside the refresh call — at most one concurrent execution of refresh per
key. Second conjunct (refresh always succeeds with value v, as in the claim
scenario where all callers race before any failure): in every completed
execution the refresh function ran exactly once and every one of the N
callers returned that same value v. -/
theorem singleflight_per_key (v : Value) (t0 ttl : Int) (n : Nat)
    (e0 : Option (SfItem Value)) (hn : 0 < n) (httl : 0 ≤ ttl)
    (h0 : entryValidB e0 t0 = false) :
    (∀ (rf : Nat → Option Value) (c : SfConfig Value),
      SfReach rf t0 ttl (sfInit n e0) c →
      ∀ i j, pcGet c.pcs i = some .refreshing → pcGet c.pcs j = some .refreshing → i = j) ∧
    (∀ c : SfConfig Value,
      SfReach (fun _ => some v) t0 ttl (sfInit n e0) c →
      (∀ i pc, pcGet c.pcs i = some pc → (∃ w, pc = SfPc.doneOk w) ∨ pc = SfPc.doneErr) →
      c.count = 1 ∧ ∀ i pc, pcGet c.pcs i = some pc → pc = SfPc.doneOk v) := by
  constructor
  · intro rf c hreach i j hi hj
    have hexcl := excl_reach rf t0 ttl (sfInit n e0) c (excl_init n e0) hreach
    have h1 := hexcl i SfPc.refreshing hi rfl
    have h2 := hexcl j SfPc.refreshing hj rfl
    rw [h1] at h2
    exact (Option.some.injEq _ _).mp h2
  · intro c hreach hcomp
    have honce := once_reach v t0 ttl httl (sfInit n e0) c (excl_init n e0)
      (once_init v t0 ttl n e0 h0) hreach
    have hlen : c.pcs.length = n := by
      have h1 := reach_pcs_length (fun _ => some v) t0 ttl (sfInit n e0) c hreach
      rw [h1]
      exact List.length_replicate n SfPc.start
    have hall : ∀ i pc, pcGet c.pcs i = some pc → pc = SfPc.doneOk v := by
      intro i pc hpc
      rcases hcomp i pc hpc with ⟨w, hw⟩ | herr
      · rw [hw] at hpc ⊢
        have hd := honce.done i w hpc
        rw [hd.1]
      · rw [herr] at hpc
        exact absurd hpc (honce.nerr i)
    refine ⟨?_, hall⟩
    obtain ⟨pc0, hpc0⟩ := pcGet_isSome_of_lt c.pcs 0 (by rw [hlen]; exact hn)
    have h1 := hall 0 pc0 hpc0
    rw [h1] at hpc0
    have hd := honce.done 0 v hpc0
    exact (honce.valid hd.2).1

/-- Witness for C2 at a concrete instance (one thread, empty entry, value 7,
ttl 5, race at time 0). -/
theorem singleflight_per_key_witness :
    (∀ (rf : Nat → Option Nat) (c : SfConfig Nat),
      SfReach rf 0 5 (sfInit 1 (none : Option (SfItem Nat))) c →
      ∀ i j, pcGet c.pcs i = some .refreshing → pcGet c.pcs j = some .refreshing → i = j) ∧
    (∀ c : SfConfig Nat,
      SfReach (fun _ => some 7) 0 5 (sfInit 1 (none : Option (SfItem Nat))) c →
      (∀ i pc, pcGet c.pcs i = some pc → (∃ w, pc = SfPc.doneOk w) ∨ pc = SfPc.doneErr) →
      c.count = 1 ∧ ∀ i pc, pcGet c.pcs i = some pc → pc = SfPc.doneOk 7) :=
  singleflight_per_key 7 0 5 1 (none : Option (SfItem Nat)) (by decide) (by decide) (by decide)

/-- A complete execution is in fact reachable: one thread creates the
placeholder, acquires the lock, sees the entry invalid, refreshes, writes and
finishes with the refreshed value — so the completed-execution statement is
not vacuous. -/
example : SfReach (fun _ => some 7) 0 5 (sfInit 1 (none : Option (SfItem Nat)))
    ⟨some ⟨true, 7, 5⟩, none, 1, [SfPc.doneOk 7]⟩ :=
  SfReach.tail _ _ _
    (SfReach.tail _ _ _
      (SfReach.tail _ _ _
        (SfReach.tail _ _ _
          (SfReach.tail _ _ _
            (SfReach.tail _ _ _ (SfReach.refl _)
              (SfStep.create _ 0 rfl rfl))
            (SfStep.acquire _ 0 rfl rfl))
          (SfStep.missInvalid _ 0 rfl rfl))
        (SfStep.refreshOk _ 0 7 rfl rfl))
      (SfStep.write _ 0 7 rfl))
    (SfStep.move _ 0 7 rfl)

end Locache
